import Mathlib

/-!
# Verification of the Multi-Agent-RCA dashboard engine

A shallow embedding of the trace/span reconstruction and diff rendering
implemented in `src/ui/dashboard_server.py`, together with proofs about it.

Python values are modelled as follows: JSON strings become `String`
(Python strings are sequences of code points, as is the logical model of
Lean's `String`), JSON numbers used by the engine (durations, token
counts) become `Int`, absent dictionary keys become `none`, and the
truthiness tests the code performs (`if msg.get("agent")`,
`if original_content and fixed_content`, ...) are modelled explicitly:
an absent value and an empty string are falsy, a non-empty string is
truthy.  File access is modelled by passing the file state (missing,
unparsable, or parsed contents) as an argument.
-/

/-! ## Data model of `message_history.json` records -/

/-- Payload of a log record, the `data` dictionary of a message.  Only the
keys the engine reads are modelled: `input_file`, `output`, `response` and
`response_length`; the membership test `"response" in response_data` of the
source corresponds to `response.isSome`. -/
structure MsgData where
  input_file : Option String
  output : Option String
  response : Option String
  response_length : Option Int
  deriving Repr, DecidableEq

/-- A record of `message_history.json` as read by `get_traces`.  Each field
is an optional dictionary entry; `mtype` models the `"type"` key. -/
structure Msg where
  trace_id : Option String
  agent : Option String
  mtype : Option String
  event : Option String
  span_id : Option String
  timestamp : Option String
  duration_ms : Option Int
  data : MsgData
  tool : Option String
  method : Option String
  model : Option String
  tokens : Option Int
  latency_ms : Option Int
  deriving Repr, DecidableEq

/-- The empty `data` dictionary (`msg.get("data", {})` default). -/
def MsgData.empty : MsgData := ⟨none, none, none, none⟩

/-- A message with no keys at all; concrete example messages below are
built from it by overriding fields. -/
def Msg.empty : Msg :=
  ⟨none, none, none, none, none, none, none, MsgData.empty, none, none, none, none, none⟩

/-- Python truthiness of `msg.get(k)` for a string-valued key: the key is
present and its value is a non-empty string. -/
def truthy : Option String → Bool
  | some s => s ≠ ""
  | none => false

/-! ## Data model of the reconstructed trace -/

/-- Value stored in a span's `input` field: the start handler stores
`msg.get("data", {}).get("input_file") or msg.get("data", {})`, that is
either the truthy `input_file` string or the whole `data` dictionary; the
`input` handler always stores the whole `data` dictionary. -/
inductive InputVal where
  | fileName (s : String)
  | payload (d : MsgData)
  deriving Repr, DecidableEq

/-- An entry of a span's `children` list (a tool call). -/
structure ToolCall where
  timestamp : Option String
  tool : Option String
  method : Option String
  data : MsgData
  span_id : Option String
  deriving Repr, DecidableEq

/-- An entry of a span's `llm_calls` list.  The `llm_response` handler
fills `response_preview`/`response_length`; the `llm_call` handler fills
`model`/`tokens`/`latency_ms`.  `ltype` models the `"type"` key. -/
structure LlmCall where
  timestamp : Option String
  ltype : String
  response_preview : Option String
  response_length : Option Int
  model : Option String
  tokens : Option Int
  latency_ms : Option Int
  deriving Repr, DecidableEq

/-- A reconstructed span, as built by `get_traces`. -/
structure Span where
  span_id : String
  agent : String
  start_time : Option String
  end_time : Option String
  duration_ms : Option Int
  status : String
  children : List ToolCall
  llm_calls : List LlmCall
  input : InputVal
  output : Option String
  deriving Repr, DecidableEq

/-- Summary statistics computed at the end of `get_traces`. -/
structure Summary where
  trace_id : Option String
  total_spans : Nat
  total_duration_ms : Int
  total_tool_calls : Nat
  total_llm_calls : Nat
  agents : List String
  deriving Repr, DecidableEq

/-- The response of `get_traces`: `summary = none` models the literal
empty dictionary returned on an empty message list. -/
structure TracesResponse where
  traces : List Span
  summary : Option Summary
  deriving Repr, DecidableEq

/-! ## The reconstruction pass of `get_traces` -/

/-- Loop state of the reconstruction: the spans appended so far are
`done ++ current.toList` (in the Python source the current span is the
last element of the `spans` list and is mutated in place; here it is kept
apart so that mutation is functional).  `current = none` models the
Python variable `current_span` being `None`. -/
structure TState where
  done : List Span
  current : Option Span
  trace_id : Option String
  deriving Repr, DecidableEq

/-- Initial loop state: `spans = []`, `current_span = None`,
`trace_id = None`. -/
def TState.init : TState := ⟨[], none, none⟩

/-- Python string slicing `s[:n]` (by code points). -/
def pyTake (s : String) (n : Nat) : String := ⟨s.data.take n⟩

/-- Python string slicing `s[n:]` (by code points). -/
def pyDrop (s : String) (n : Nat) : String := ⟨s.data.drop n⟩

/-- The span opened by the `start` handler. -/
def mkSpan (m : Msg) : Span :=
  { span_id := m.span_id.getD ""
    agent := m.agent.getD "Unknown"
    start_time := m.timestamp
    end_time := none
    duration_ms := none
    status := "running"
    children := []
    llm_calls := []
    input := if truthy m.data.input_file then
        InputVal.fileName (m.data.input_file.getD "")
      else InputVal.payload m.data
    output := none }

/-- The mutation performed by the `complete` handler on the current span. -/
def completeSpan (m : Msg) (s : Span) : Span :=
  { s with
    end_time := m.timestamp
    duration_ms := m.duration_ms
    status := "success"
    output := m.data.output }

/-- The `llm_call` dictionary built by the `llm_response` handler:
`response_preview` is `resp[:200] + "..."` when `len(resp) > 200` and the
whole response otherwise; with no `response` key but a `response_length`
key only the length is recorded. -/
def mkLlmResponseCall (m : Msg) : LlmCall :=
  let base : LlmCall :=
    ⟨m.timestamp, "llm_response", none, none, none, none, none⟩
  match m.data.response with
  | some resp =>
      { base with
        response_preview :=
          some (if resp.length > 200 then pyTake resp 200 ++ "..." else resp)
        response_length := some (resp.length : Int) }
  | none =>
      match m.data.response_length with
      | some n => { base with response_length := some n }
      | none => base

/-- The tool-call dictionary built by the tool branch. -/
def mkToolCall (m : Msg) : ToolCall :=
  ⟨m.timestamp, m.tool, m.method, m.data, m.span_id⟩

/-- The dictionary appended by the `llm_call` branch. -/
def mkLlmCall (m : Msg) : LlmCall :=
  ⟨m.timestamp, "llm_call", none, none, m.model, m.tokens, m.latency_ms⟩

/-- Condition for entering the agent-event branch:
`msg.get("agent") or msg.get("type") == "agent_event"`. -/
def agentBranch (m : Msg) : Bool :=
  truthy m.agent || m.mtype == some "agent_event"

/-- Condition for entering the tool branch:
`msg.get("tool") or msg.get("type") == "tool_call"`. -/
def toolBranch (m : Msg) : Bool :=
  truthy m.tool || m.mtype == some "tool_call"

/-- The first statement of the loop body of `get_traces`:
`if msg.get("trace_id") and not trace_id: trace_id = msg.get("trace_id")`. -/
def updTraceId (st : TState) (m : Msg) : TState :=
  if truthy m.trace_id && !(truthy st.trace_id) then
    { st with trace_id := m.trace_id }
  else st

/-- The event dispatch of the loop body of `get_traces`, translated
branch for branch from the source.  Note that the `complete` handler
does not reset `current` to `none`. -/
def stepMsgCore (st : TState) (m : Msg) : TState :=
  if agentBranch m then
    let event := m.event.getD ""
    if event = "start" then
      { st with done := st.done ++ st.current.toList, current := some (mkSpan m) }
    else if event = "complete" then
      match st.current with
      | some c => { st with current := some (completeSpan m c) }
      | none => st
    else if event = "input" then
      match st.current with
      | some c => { st with current := some { c with input := InputVal.payload m.data } }
      | none => st
    else if event = "llm_response" then
      match st.current with
      | some c =>
          { st with current := some { c with llm_calls := c.llm_calls ++ [mkLlmResponseCall m] } }
      | none => st
    else st
  else if toolBranch m then
    match st.current with
    | some c => { st with current := some { c with children := c.children ++ [mkToolCall m] } }
    | none => st
  else if m.mtype == some "llm_call" then
    match st.current with
    | some c => { st with current := some { c with llm_calls := c.llm_calls ++ [mkLlmCall m] } }
    | none => st
  else st

/-- One iteration of the `for msg in messages` loop of `get_traces`:
the trace-id pickup followed by the event dispatch. -/
def stepMsg (st : TState) (m : Msg) : TState :=
  stepMsgCore (updTraceId st m) m

/-- The loop state after processing a message list. -/
def runMsgs (msgs : List Msg) : TState := msgs.foldl stepMsg TState.init

/-- The ordered span list produced by the reconstruction pass. -/
def TState.spans (st : TState) : List Span := st.done ++ st.current.toList

/-- Summary computation of `get_traces`: `if span.get("duration_ms")`
is Python truthiness on a number, so absent and zero durations are both
skipped. -/
def mkSummary (trace_id : Option String) (spans : List Span) : Summary :=
  { trace_id := trace_id
    total_spans := spans.length
    total_duration_ms :=
      spans.foldl (fun acc s =>
        match s.duration_ms with
        | some d => if d ≠ 0 then acc + d else acc
        | none => acc) 0
    total_tool_calls := spans.foldl (fun acc s => acc + s.children.length) 0
    total_llm_calls := spans.foldl (fun acc s => acc + s.llm_calls.length) 0
    agents := spans.map Span.agent }

/-- The whole of `get_traces`, as a function of the parsed message list:
an empty list returns `{"traces": [], "summary": {}}` at once, otherwise
the reconstruction pass runs and the summary is computed. -/
def get_traces (messages : List Msg) : TracesResponse :=
  if messages = [] then ⟨[], none⟩
  else
    let st := runMsgs messages
    let spans := st.spans
    ⟨spans, some (mkSummary st.trace_id spans)⟩

/-! ## `read_json_file` -/

/-- State of a JSON file on disk, as far as `read_json_file` can observe
it: missing (raises `FileNotFoundError`), unparsable (raises
`JSONDecodeError`), or parsed to a value.  Instantiated here at message
lists, the type at which `get_traces` calls it. -/
inductive JsonFile where
  | missing
  | unparsable
  | parsed (msgs : List Msg)
  deriving Repr, DecidableEq

/-- The embedding of `read_json_file`: both exception branches return the
supplied default (the caller `get_traces` passes `[]`). -/
def read_json_file (f : JsonFile) (dflt : List Msg) : List Msg :=
  match f with
  | .parsed msgs => msgs
  | .missing => dflt
  | .unparsable => dflt

/-! ## Concrete example messages -/

/-- A `start` event for agent "RCA" (shape as written by
`log_agent_message` in `src/tools/logger.py`). -/
def exStart : Msg :=
  { Msg.empty with
    trace_id := some "t1"
    agent := some "RCA"
    mtype := some "agent_event"
    event := some "start"
    span_id := some "s1"
    timestamp := some "2024-01-01T00:00:00+00:00" }

/-- A `complete` event carrying a duration. -/
def exComplete : Msg :=
  { Msg.empty with
    trace_id := some "t1"
    agent := some "RCA"
    mtype := some "agent_event"
    event := some "complete"
    span_id := some "s1"
    timestamp := some "2024-01-01T00:00:00.120000+00:00"
    duration_ms := some 120
    data := { MsgData.empty with output := some "done" } }

/-- A `complete` event with no `duration_ms` key. -/
def exCompleteNoDuration : Msg :=
  { Msg.empty with
    trace_id := some "t1"
    agent := some "RCA"
    mtype := some "agent_event"
    event := some "complete"
    span_id := some "s1"
    timestamp := some "2024-01-01T00:00:00.120000+00:00"
    data := { MsgData.empty with output := some "done" } }

/-- A tool call (shape as written by `log_tool_call`). -/
def exTool : Msg :=
  { Msg.empty with
    trace_id := some "t1"
    mtype := some "tool_call"
    tool := some "FileReader"
    method := some "read"
    span_id := some "s1"
    timestamp := some "2024-01-01T00:00:00.050000+00:00" }

/-- An `llm_response` event whose response text is the two-character
string "hi". -/
def exLlmResponse : Msg :=
  { Msg.empty with
    trace_id := some "t1"
    agent := some "RCA"
    mtype := some "agent_event"
    event := some "llm_response"
    span_id := some "s1"
    timestamp := some "2024-01-01T00:00:00.080000+00:00"
    data := { MsgData.empty with response := some "hi" } }

/-! ## The diff pipeline of `get_patch`

`get_patch` splits both file contents into lines, runs
`difflib.unified_diff(original_lines, fixed_lines, lineterm="", n=3)` and
re-parses the emitted text lines into structured diff records.  The
re-parsing loop is embedded verbatim below (`processLine`).  `difflib`
itself is the Python standard library, not code of this repository; its
alignment is modelled from the spec ("a minimal edit script … using a
longest-common-subsequence-based alignment"), while its grouping into
hunks with `n = 3` context lines and its output line format
(`--- `/`+++ ` headers, `@@ -r +r @@` hunk headers, ` `/`-`/`+` prefixed
lines) follow the documented `unified_diff` behaviour. -/

/-- Python `str.splitlines` for `\n`-separated text (worker on the
character list): a trailing newline produces no trailing empty line. -/
def splitLinesGo : List Char → List Char → List String
  | [], acc => if acc.isEmpty then [] else [⟨acc.reverse⟩]
  | '\n' :: rest, acc => (⟨acc.reverse⟩ : String) :: splitLinesGo rest []
  | c :: rest, acc => splitLinesGo rest (c :: acc)

/-- Python `str.splitlines` (modelled for `\n` line breaks; the engine's
inputs are ordinary text files). -/
def splitLines (s : String) : List String := splitLinesGo s.data []

/-- Modelled from the spec: length of a longest common subsequence of two
line sequences, the alignment measure of the diff (the repository calls
`difflib`, which is outside the repository; the spec specifies an
LCS-based alignment). -/
def lcsLen : List String → List String → Nat
  | [], _ => 0
  | _ :: _, [] => 0
  | x :: xs, y :: ys =>
    if x = y then lcsLen xs ys + 1
    else max (lcsLen xs (y :: ys)) (lcsLen (x :: xs) ys)
termination_by a b => a.length + b.length

/-- One line of the edit script: kept, removed from the original, or
inserted from the modified sequence. -/
inductive LineOp where
  | eq (s : String)
  | del (s : String)
  | ins (s : String)
  deriving Repr, DecidableEq

/-- Modelled from the spec: an LCS-realising edit script over the two
line sequences (unchanged lines kept, others removed/inserted). -/
def diffOps : List String → List String → List LineOp
  | [], [] => []
  | [], y :: ys => .ins y :: diffOps [] ys
  | x :: xs, [] => .del x :: diffOps xs []
  | x :: xs, y :: ys =>
    if x = y then .eq x :: diffOps xs ys
    else if lcsLen xs (y :: ys) ≥ lcsLen (x :: xs) ys then .del x :: diffOps xs (y :: ys)
    else .ins y :: diffOps (x :: xs) ys
termination_by a b => a.length + b.length

/-- Opcode tag, as in `difflib` (a `replace` opcode behaves in grouping
and formatting exactly like a `delete` followed by an `insert`, so only
three tags are needed). -/
inductive Tag where
  | equal
  | delete
  | insert
  deriving Repr, DecidableEq

/-- An opcode: a tag, the half-open ranges `[a1, a2)` of the original and
`[b1, b2)` of the modified sequence it covers, and the covered lines
themselves (from the original for `equal`/`delete`, from the modified
sequence for `insert`). -/
structure Code where
  tag : Tag
  a1 : Nat
  a2 : Nat
  b1 : Nat
  b2 : Nat
  ls : List String
  deriving Repr, DecidableEq

/-- An `equal` opcode covering the single position `(i, j)`. -/
def newEqCode (s : String) (i j : Nat) : Code := ⟨.equal, i, i + 1, j, j + 1, [s]⟩

/-- Prepend a kept line to an opcode list, merging it into a following
`equal` opcode so that maximal runs of unchanged lines form one opcode
(as in `difflib.get_opcodes`). -/
def addEq (s : String) (i j : Nat) : List Code → List Code
  | [] => [newEqCode s i j]
  | c :: cs =>
    if c.tag = .equal then { c with a1 := i, b1 := j, ls := s :: c.ls } :: cs
    else newEqCode s i j :: c :: cs

/-- Turn the edit script into opcodes, tracking positions in both
sequences starting from `(i, j)`. -/
def buildCodes : List LineOp → Nat → Nat → List Code
  | [], _, _ => []
  | .eq s :: rest, i, j => addEq s i j (buildCodes rest (i + 1) (j + 1))
  | .del s :: rest, i, j => ⟨.delete, i, i + 1, j, j, [s]⟩ :: buildCodes rest (i + 1) j
  | .ins s :: rest, i, j => ⟨.insert, i, i, j, j + 1, [s]⟩ :: buildCodes rest i (j + 1)

/-- First step of `difflib.get_grouped_opcodes`: a leading `equal` opcode
keeps only its last `n` lines. -/
def trimFirstCode (n : Nat) : List Code → List Code
  | [] => []
  | c :: cs =>
    (if c.tag = .equal then
      { c with a1 := max c.a1 (c.a2 - n), b1 := max c.b1 (c.b2 - n),
               ls := c.ls.drop (c.ls.length - n) }
     else c) :: cs

/-- Second step of `difflib.get_grouped_opcodes`: a trailing `equal`
opcode keeps only its first `n` lines. -/
def trimLastCode (n : Nat) : List Code → List Code
  | [] => []
  | [c] =>
    [if c.tag = .equal then
      { c with a2 := min c.a2 (c.a1 + n), b2 := min c.b2 (c.b1 + n), ls := c.ls.take n }
     else c]
  | c :: cs => c :: trimLastCode n cs

/-- Does a group consist of a single `equal` opcode (such a group is not
emitted)? -/
def singleEqual : List Code → Bool
  | [c] => c.tag == Tag.equal
  | _ => false

/-- Main loop of `difflib.get_grouped_opcodes`: an `equal` opcode longer
than `2 n` lines ends the current group (keeping its first `n` lines) and
starts the next one (keeping its last `n` lines); at the end the pending
group is emitted unless it is a single `equal` opcode. -/
def groupLoop (n : Nat) (group : List Code) : List Code → List (List Code)
  | [] => if group.isEmpty || singleEqual group then [] else [group]
  | c :: rest =>
    if c.tag = Tag.equal ∧ c.a2 - c.a1 > n * 2 then
      (group ++ [{ c with a2 := min c.a2 (c.a1 + n), b2 := min c.b2 (c.b1 + n),
                          ls := c.ls.take n }])
        :: groupLoop n [{ c with a1 := max c.a1 (c.a2 - n), b1 := max c.b1 (c.b2 - n),
                                 ls := c.ls.drop (c.ls.length - n) }] rest
    else groupLoop n (group ++ [c]) rest

/-- `difflib.get_grouped_opcodes(n)`: an empty opcode list is replaced by
a dummy `equal` opcode (which the final filter then drops), the two outer
`equal` runs are trimmed to `n` context lines and the loop above splits at
long `equal` runs. -/
def getGroupedOpcodes (codes : List Code) (n : Nat) : List (List Code) :=
  let codes := if codes.isEmpty then [⟨.equal, 0, 1, 0, 1, []⟩] else codes
  groupLoop n [] (trimLastCode n (trimFirstCode n codes))

/-! ## Decimal printing (for `@@` hunk headers) -/

/-- The decimal digit characters. -/
def digitChar : Nat → Char
  | 0 => '0'
  | 1 => '1'
  | 2 => '2'
  | 3 => '3'
  | 4 => '4'
  | 5 => '5'
  | 6 => '6'
  | 7 => '7'
  | 8 => '8'
  | 9 => '9'
  | _ => '*'

/-- Decimal digits of `n`, most significant first, prepended to `acc`. -/
def natToCharsAux (n : Nat) (acc : List Char) : List Char :=
  if n < 10 then digitChar n :: acc
  else natToCharsAux (n / 10) (digitChar (n % 10) :: acc)
termination_by n
decreasing_by exact Nat.div_lt_self (by omega) (by omega)

/-- Standard decimal rendering of a natural number. -/
def natStr (n : Nat) : String := ⟨natToCharsAux n []⟩

/-- `difflib._format_range_unified`: "start,length" with the start
1-based, the length omitted when it is 1, and the 0-based start kept when
the length is 0. -/
def fmtRange (start stop : Nat) : String :=
  let length := stop - start
  if length = 1 then natStr (start + 1)
  else if length = 0 then natStr start ++ ",0"
  else natStr (start + 1) ++ "," ++ natStr length

/-- The text lines an opcode contributes to a hunk: its lines prefixed
with ` `, `-` or `+`. -/
def fmtCode (c : Code) : List String :=
  match c.tag with
  | .equal => c.ls.map (fun s => " " ++ s)
  | .delete => c.ls.map (fun s => "-" ++ s)
  | .insert => c.ls.map (fun s => "+" ++ s)

/-- The text lines of one hunk: the `@@` header built from the first and
last opcode's ranges, then the prefixed lines of every opcode. -/
def fmtGroup (g : List Code) : List String :=
  match g.head?, g.getLast? with
  | some f, some l =>
      ("@@ -" ++ fmtRange f.a1 l.a2 ++ " +" ++ fmtRange f.b1 l.b2 ++ " @@")
        :: (g.map fmtCode).flatten
  | _, _ => []

/-- The full output of `difflib.unified_diff(..., lineterm="")` with the
default empty file names: nothing when there is no hunk, otherwise the
two file headers followed by every hunk. -/
def unifiedDiffLines (groups : List (List Code)) : List String :=
  match groups with
  | [] => []
  | _ => "--- " :: "+++ " :: (groups.map fmtGroup).flatten

/-! ## The re-parsing loop of `get_patch` -/

/-- Python `line.startswith(pre)`. -/
def pyStartsWith (s pre : String) : Bool := pre.data.isPrefixOf s.data

/-- Worker for Python `str.split()` (split on whitespace runs, dropping
empty fields); `acc` holds the reversed current field. -/
def wsplitGo : List Char → List Char → List String
  | [], acc => if acc.isEmpty then [] else [⟨acc.reverse⟩]
  | c :: rest, acc =>
    if c.isWhitespace then
      if acc.isEmpty then wsplitGo rest []
      else (⟨acc.reverse⟩ : String) :: wsplitGo rest []
    else wsplitGo rest (c :: acc)

/-- Python `line.split()`. -/
def pySplit (s : String) : List String := wsplitGo s.data []

/-- Python `s.split(",")[0]`: the part of `s` before its first comma. -/
def takeUntilComma (s : String) : String := ⟨s.data.takeWhile (fun c => c ≠ ',')⟩

/-- Numeric value of a decimal digit character. -/
def digitVal (c : Char) : Nat := c.toNat - 48

/-- Parse an unsigned decimal numeral: at least one character, all
digits. -/
def parseDigits (cs : List Char) : Option Nat :=
  if cs ≠ [] ∧ cs.all Char.isDigit then
    some (cs.foldl (fun a c => a * 10 + digitVal c) 0)
  else none

/-- Python `int(s)` (modelled for clean numerals: an optional sign
followed by decimal digits; `None` models the `ValueError` the
surrounding `try` catches). -/
def pyInt (s : String) : Option Int :=
  match s.data with
  | '-' :: rest => (parseDigits rest).map (fun n => -(n : Int))
  | '+' :: rest => (parseDigits rest).map (fun n => (n : Int))
  | cs => (parseDigits cs).map (fun n => (n : Int))

/-- Classification of a re-parsed diff line, the `"type"` field of the
emitted record. -/
inductive DiffKind where
  | added
  | removed
  | context
  deriving Repr, DecidableEq

/-- One emitted diff record: `{"line_number": …, "type": …, "content": …}`. -/
structure DiffLine where
  line_number : Nat
  kind : DiffKind
  content : String
  deriving Repr, DecidableEq

/-- State of the re-parsing loop: the emitted records (most recent
first), the two counters, and the running original-file line number. -/
structure PState where
  rev : List DiffLine
  additions : Nat
  deletions : Nat
  line_num : Nat
  deriving Repr, DecidableEq

/-- One iteration of the `for line in differ` loop of `get_patch`,
translated branch for branch from the source: `@@` headers reset the line
counter to `abs(int(parts[1].split(",")[0]))` (0 if unparsable), lines
starting with `---` or `+++` are skipped, `-` lines are removed (counter
incremented), `+` lines are added (counter not incremented), anything
else is context (counter incremented). -/
def processLine (st : PState) (line : String) : PState :=
  if pyStartsWith line "@@" then
    let parts := pySplit line
    if parts.length ≥ 2 then
      match pyInt (takeUntilComma (parts.getD 1 "")) with
      | some v => { st with line_num := v.natAbs }
      | none => { st with line_num := 0 }
    else st
  else if pyStartsWith line "---" || pyStartsWith line "+++" then st
  else if pyStartsWith line "-" then
    { st with rev := ⟨st.line_num, .removed, pyDrop line 1⟩ :: st.rev,
              deletions := st.deletions + 1, line_num := st.line_num + 1 }
  else if pyStartsWith line "+" then
    { st with rev := ⟨st.line_num, .added, pyDrop line 1⟩ :: st.rev,
              additions := st.additions + 1 }
  else
    { st with rev := ⟨st.line_num, .context,
                      if pyStartsWith line " " then pyDrop line 1 else line⟩ :: st.rev,
              line_num := st.line_num + 1 }

/-- Result of the diff computation inside `get_patch`: the `diff` list
and the two change counters. -/
structure DiffResult where
  lines : List DiffLine
  additions : Nat
  deletions : Nat
  deriving Repr, DecidableEq

/-- Run the re-parsing loop over the differ output. -/
def processDiffLines (ls : List String) : DiffResult :=
  let st := ls.foldl processLine ⟨[], 0, 0, 0⟩
  ⟨st.rev.reverse, st.additions, st.deletions⟩

/-- The diff block of `get_patch` on two line sequences: align, group
into hunks, format as `unified_diff` text and re-parse. -/
def diffPipeline (a b : List String) : DiffResult :=
  processDiffLines (unifiedDiffLines (getGroupedOpcodes (buildCodes (diffOps a b) 0 0) 3))

/-- The diff portion of `get_patch` as a function of the two artifact
contents (`none` models a missing file): the guard
`if original_content and fixed_content` runs the diff only when both are
present and non-empty, otherwise the empty result is kept. -/
def getPatchDiff (original fixed : Option String) : DiffResult :=
  match original, fixed with
  | some o, some f =>
      if o ≠ "" ∧ f ≠ "" then diffPipeline (splitLines o) (splitLines f)
      else ⟨[], 0, 0⟩
  | _, _ => ⟨[], 0, 0⟩

/-- The fields of the `get_patch` response the claims are about; `status`
is `patch_info.get("status", "pending")`, taken from the shared memory
store independently of the artifacts. -/
structure PatchResponse where
  original_content : Option String
  fixed_content : Option String
  diff : List DiffLine
  additions : Nat
  deletions : Nat
  status : String
  deriving Repr, DecidableEq

/-- The embedding of `get_patch`, as a function of the stored patch
status and the two artifact contents. -/
def get_patch (patchStatus : Option String) (originalContent fixedContent : Option String) :
    PatchResponse :=
  let r := getPatchDiff originalContent fixedContent
  ⟨originalContent, fixedContent, r.lines, r.additions, r.deletions, patchStatus.getD "pending"⟩

/-! ## The numbering discipline in the spec's words

The spec describes the line numbering as: a running counter seeded from
each hunk's reported starting line in the original sequence; Context and
Removed lines are emitted with the current counter value and then
increment it; Added lines are emitted with the current counter value
without incrementing it.  The following definitions state that discipline
over the structured hunks, to be compared with what the engine emits. -/

/-- The starting line a hunk reports for the original sequence: the first
number of its `@@` header, i.e. the 1-based start of the range the hunk
covers in the original file (0-based when that range is empty). -/
def reportedStart (g : List Code) : Nat :=
  match g.head?, g.getLast? with
  | some f, some l => if l.a2 - f.a1 = 0 then f.a1 else f.a1 + 1
  | _, _ => 0

/-- The classified content lines of one opcode. -/
def codeKindLines (c : Code) : List (DiffKind × String) :=
  match c.tag with
  | .equal => c.ls.map (fun s => (DiffKind.context, s))
  | .delete => c.ls.map (fun s => (DiffKind.removed, s))
  | .insert => c.ls.map (fun s => (DiffKind.added, s))

/-- The spec's numbering discipline over a classified line sequence,
starting from a seed: context and removed lines take the counter and
increment it, added lines take the counter and leave it. -/
def specNumberLines : Nat → List (DiffKind × String) → List DiffLine
  | _, [] => []
  | k, (DiffKind.context, s) :: rest => ⟨k, .context, s⟩ :: specNumberLines (k + 1) rest
  | k, (DiffKind.removed, s) :: rest => ⟨k, .removed, s⟩ :: specNumberLines (k + 1) rest
  | k, (DiffKind.added, s) :: rest => ⟨k, .added, s⟩ :: specNumberLines k rest

/-- The diff records the spec's numbering discipline predicts for a hunk
sequence: each hunk's classified lines numbered from its reported start. -/
def specNumberedDiff (groups : List (List Code)) : List DiffLine :=
  (groups.map (fun g => specNumberLines (reportedStart g) ((g.map codeKindLines).flatten))).flatten

/-- The hunks `get_patch` forms for two line sequences. -/
def groupsOf (a b : List String) : List (List Code) :=
  getGroupedOpcodes (buildCodes (diffOps a b) 0 0) 3

/-- Number of removed lines an opcode contributes. -/
def codeDelCount (c : Code) : Nat :=
  match c.tag with
  | .delete => c.ls.length
  | _ => 0

/-- Number of added lines an opcode contributes. -/
def codeInsCount (c : Code) : Nat :=
  match c.tag with
  | .insert => c.ls.length
  | _ => 0

/-- Total removed lines of a hunk sequence. -/
def groupsDelCount (gs : List (List Code)) : Nat :=
  (gs.map (fun g => (g.map codeDelCount).sum)).sum

/-- Total added lines of a hunk sequence. -/
def groupsInsCount (gs : List (List Code)) : Nat :=
  (gs.map (fun g => (g.map codeInsCount).sum)).sum

/-! ## Auxiliary definitions used in the statements below -/

/-- Does a message open a new span (agent branch taken and
`event == "start"`)?  This is the only place `current_span` is ever
assigned in the source. -/
def isStartMsg (m : Msg) : Bool :=
  agentBranch m && (m.event.getD "" == "start")

/-- Total number of tool-call children over all spans of a state. -/
def totalChildren (st : TState) : Nat :=
  (st.spans.map (fun s => s.children.length)).sum

/-- The text line `unified_diff` emits for a classified content line. -/
def lineOfKind (p : DiffKind × String) : String :=
  match p.1 with
  | .added => "+" ++ p.2
  | .removed => "-" ++ p.2
  | .context => " " ++ p.2

/-- Number of original-file positions an opcode occupies (context and
removed lines occupy one each, added lines none). -/
def codeSrcCount (c : Code) : Nat :=
  match c.tag with
  | .insert => 0
  | _ => c.ls.length

/-- Number of removed lines in an edit script. -/
def opsDelCount (ops : List LineOp) : Nat :=
  ops.countP (fun o => match o with | .del _ => true | _ => false)

/-- Number of inserted lines in an edit script. -/
def opsInsCount (ops : List LineOp) : Nat :=
  ops.countP (fun o => match o with | .ins _ => true | _ => false)

/-- A hunk whose removed lines never start with `--` and whose added
lines never start with `++`: for such hunks the re-parsing loop of
`get_patch` classifies every formatted line correctly (a removed line
starting with `--` is formatted as `---…` and swallowed by the
file-header skip, and likewise `++` lines as `+++…`). -/
def groupBenign (g : List Code) : Prop :=
  ∀ c ∈ g,
    (c.tag = Tag.delete → ∀ s ∈ c.ls, pyStartsWith s "--" = false) ∧
    (c.tag = Tag.insert → ∀ s ∈ c.ls, pyStartsWith s "++" = false)

/-- All hunks benign. -/
def groupsBenign (gs : List (List Code)) : Prop := ∀ g ∈ gs, groupBenign g

/-- The original-file line counter left after processing a hunk
sequence (each hunk header reseeds the counter, so only the last hunk
matters). -/
def groupsEndNum (k : Nat) (gs : List (List Code)) : Nat :=
  gs.foldl (fun _ g => reportedStart g + (g.map codeSrcCount).sum) k

/-- Contribution of one classified line to the additions counter. -/
def addedOne (p : DiffKind × String) : Nat :=
  match p.1 with
  | DiffKind.added => 1
  | _ => 0

/-- Contribution of one classified line to the deletions counter. -/
def removedOne (p : DiffKind × String) : Nat :=
  match p.1 with
  | DiffKind.removed => 1
  | _ => 0

/-- Contribution of one classified line to the original-file line
counter (context and removed lines advance it, added lines do not). -/
def srcOne (p : DiffKind × String) : Nat :=
  match p.1 with
  | DiffKind.added => 0
  | _ => 1

/-! # Theorems -/

/-! ## Trace-side helper lemmas -/

/-- The trace-id pickup changes neither the span list nor the current
span. -/
theorem updTraceId_done (st : TState) (m : Msg) : (updTraceId st m).done = st.done := by
  unfold updTraceId; split <;> rfl

theorem updTraceId_current (st : TState) (m : Msg) :
    (updTraceId st m).current = st.current := by
  unfold updTraceId; split <;> rfl

theorem updTraceId_spans (st : TState) (m : Msg) : (updTraceId st m).spans = st.spans := by
  unfold TState.spans; rw [updTraceId_done, updTraceId_current]

/-- Branch equation: a `start` event opens a new span and makes it
current. -/
theorem stepMsgCore_start (st : TState) (m : Msg) (hA : agentBranch m = true)
    (hev : m.event.getD "" = "start") :
    stepMsgCore st m =
      { st with done := st.done ++ st.current.toList, current := some (mkSpan m) } := by
  simp [stepMsgCore, hA, hev]

/-- Branch equation: a `complete` event with an open current span
closes it in place. -/
theorem stepMsgCore_complete (st : TState) (m : Msg) (c : Span) (hA : agentBranch m = true)
    (hev : m.event.getD "" = "complete") (hc : st.current = some c) :
    stepMsgCore st m = { st with current := some (completeSpan m c) } := by
  simp [stepMsgCore, hA, hev, hc]

/-- Branch equation: an `input` event with a current span overwrites its
input with the whole `data` dictionary. -/
theorem stepMsgCore_input (st : TState) (m : Msg) (c : Span) (hA : agentBranch m = true)
    (hev : m.event.getD "" = "input") (hc : st.current = some c) :
    stepMsgCore st m =
      { st with current := some { c with input := InputVal.payload m.data } } := by
  simp [stepMsgCore, hA, hev, hc]

/-- Branch equation: an `llm_response` event with a current span appends
an LLM record to its `llm_calls` list. -/
theorem stepMsgCore_llmResponse (st : TState) (m : Msg) (c : Span)
    (hA : agentBranch m = true) (hev : m.event.getD "" = "llm_response")
    (hc : st.current = some c) :
    stepMsgCore st m =
      { st with current := some { c with llm_calls := c.llm_calls ++ [mkLlmResponseCall m] } } := by
  simp [stepMsgCore, hA, hev, hc]

/-- Branch equation: an agent event other than the four handled ones is
ignored. -/
theorem stepMsgCore_agent_other (st : TState) (m : Msg) (hA : agentBranch m = true)
    (h1 : m.event.getD "" ≠ "start") (h2 : m.event.getD "" ≠ "complete")
    (h3 : m.event.getD "" ≠ "input") (h4 : m.event.getD "" ≠ "llm_response") :
    stepMsgCore st m = st := by
  simp [stepMsgCore, hA, h1, h2, h3, h4]

/-- Branch equation: a tool message with a current span appends a tool
call to its children. -/
theorem stepMsgCore_tool (st : TState) (m : Msg) (c : Span) (hA : agentBranch m = false)
    (hT : toolBranch m = true) (hc : st.current = some c) :
    stepMsgCore st m =
      { st with current := some { c with children := c.children ++ [mkToolCall m] } } := by
  simp [stepMsgCore, hA, hT, hc]

/-- Branch equation: a tool message with no current span is dropped. -/
theorem stepMsgCore_tool_none (st : TState) (m : Msg) (hA : agentBranch m = false)
    (hT : toolBranch m = true) (hc : st.current = none) :
    stepMsgCore st m = st := by
  simp [stepMsgCore, hA, hT, hc]

/-- Branch equation: an `llm_call` message with a current span appends
an LLM record to its `llm_calls`. -/
theorem stepMsgCore_llmCall (st : TState) (m : Msg) (c : Span) (hA : agentBranch m = false)
    (hT : toolBranch m = false) (hL : m.mtype == some "llm_call")
    (hc : st.current = some c) :
    stepMsgCore st m =
      { st with current := some { c with llm_calls := c.llm_calls ++ [mkLlmCall m] } } := by
  simp [stepMsgCore, hA, hT, hL, hc]

/-- Branch equation: any other message leaves the state unchanged. -/
theorem stepMsgCore_other (st : TState) (m : Msg) (hA : agentBranch m = false)
    (hT : toolBranch m = false)
    (hcur : st.current = none ∨ (m.mtype == some "llm_call") = false) :
    stepMsgCore st m = st := by
  rcases hcur with hc | hL
  · unfold stepMsgCore
    rw [if_neg (by simp [hA]), if_neg (by simp [hT])]
    split
    · rw [hc]
    · rfl
  · simp [stepMsgCore, hA, hT, hL]

/-- An agent event other than `start` with no current span leaves the
state unchanged. -/
theorem stepMsgCore_agent_nocurrent (st : TState) (m : Msg) (hA : agentBranch m = true)
    (h1 : m.event.getD "" ≠ "start") (hc : st.current = none) :
    stepMsgCore st m = st := by
  simp [stepMsgCore, hA, h1, hc]

/-- Statuses written by the dispatch are only `"running"` and
`"success"`; every other update keeps the status of an existing span. -/
theorem stepMsgCore_status_invariant (P : String → Prop) (hrun : P "running")
    (hsucc : P "success") (st : TState) (m : Msg)
    (h : ∀ s ∈ st.spans, P s.status) :
    ∀ s ∈ (stepMsgCore st m).spans, P s.status := by
  intro s hs
  have hrepl : ∀ (c x : Span), st.current = some c → x.status = c.status →
      (s ∈ st.done ∨ s = x) → P s.status := by
    intro c x hc hx hsx
    rcases hsx with h' | h'
    · exact h s (by simp [TState.spans]; exact Or.inl h')
    · subst h'
      rw [hx]
      exact h c (by simp [TState.spans, hc])
  by_cases hA : agentBranch m = true
  · by_cases h1 : m.event.getD "" = "start"
    · rw [stepMsgCore_start st m hA h1] at hs
      have hs2 : s ∈ st.spans ++ [mkSpan m] := by
        simpa [TState.spans, List.append_assoc] using hs
      rcases List.mem_append.mp hs2 with h' | h'
      · exact h s h'
      · have hx2 : s = mkSpan m := by simpa using h'
        subst hx2
        exact hrun
    · cases hcur : st.current with
      | none =>
        rw [stepMsgCore_agent_nocurrent st m hA h1 hcur] at hs
        exact h s hs
      | some c =>
        by_cases h2 : m.event.getD "" = "complete"
        · rw [stepMsgCore_complete st m c hA h2 hcur] at hs
          have hx2 : s ∈ st.done ∨ s = completeSpan m c := by simpa [TState.spans] using hs
          rcases hx2 with h' | h'
          · exact h s (by simp [TState.spans]; exact Or.inl h')
          · subst h'
            exact hsucc
        · by_cases h3 : m.event.getD "" = "input"
          · rw [stepMsgCore_input st m c hA h3 hcur] at hs
            exact hrepl c { c with input := InputVal.payload m.data } hcur rfl
              (by simpa [TState.spans] using hs)
          · by_cases h4 : m.event.getD "" = "llm_response"
            · rw [stepMsgCore_llmResponse st m c hA h4 hcur] at hs
              exact hrepl c { c with llm_calls := c.llm_calls ++ [mkLlmResponseCall m] } hcur rfl
                (by simpa [TState.spans] using hs)
            · rw [stepMsgCore_agent_other st m hA h1 h2 h3 h4] at hs
              exact h s hs
  · have hA2 : agentBranch m = false := by simpa using hA
    by_cases hT : toolBranch m = true
    · cases hcur : st.current with
      | none =>
        rw [stepMsgCore_tool_none st m hA2 hT hcur] at hs
        exact h s hs
      | some c =>
        rw [stepMsgCore_tool st m c hA2 hT hcur] at hs
        exact hrepl c { c with children := c.children ++ [mkToolCall m] } hcur rfl
          (by simpa [TState.spans] using hs)
    · have hT2 : toolBranch m = false := by simpa using hT
      by_cases hL : (m.mtype == some "llm_call") = true
      · cases hcur : st.current with
        | none =>
          rw [stepMsgCore_other st m hA2 hT2 (Or.inl hcur)] at hs
          exact h s hs
        | some c =>
          rw [stepMsgCore_llmCall st m c hA2 hT2 hL hcur] at hs
          exact hrepl c { c with llm_calls := c.llm_calls ++ [mkLlmCall m] } hcur rfl
            (by simpa [TState.spans] using hs)
      · rw [stepMsgCore_other st m hA2 hT2 (Or.inr (by simpa using hL))] at hs
        exact h s hs

/-- Status invariant over a full loop iteration. -/
theorem stepMsg_status_invariant (P : String → Prop) (hrun : P "running")
    (hsucc : P "success") (st : TState) (m : Msg)
    (h : ∀ s ∈ st.spans, P s.status) :
    ∀ s ∈ (stepMsg st m).spans, P s.status := by
  unfold stepMsg
  refine stepMsgCore_status_invariant P hrun hsucc _ m ?_
  rw [updTraceId_spans]
  exact h

/-- Status invariant over the whole reconstruction pass. -/
theorem runMsgs_status_invariant (P : String → Prop) (hrun : P "running")
    (hsucc : P "success") (msgs : List Msg) :
    ∀ s ∈ (runMsgs msgs).spans, P s.status := by
  suffices h : ∀ (st : TState), (∀ s ∈ st.spans, P s.status) →
      ∀ s ∈ (msgs.foldl stepMsg st).spans, P s.status from
    h TState.init (by simp [TState.init, TState.spans])
  induction msgs with
  | nil => intro st hst; exact hst
  | cons m rest ih =>
    intro st hst
    exact ih (stepMsg st m) (stepMsg_status_invariant P hrun hsucc st m hst)

/-- The current-span reference is set by `start` events and never
cleared afterwards. -/
theorem stepMsgCore_current_isSome (st : TState) (m : Msg) :
    (stepMsgCore st m).current.isSome = (st.current.isSome || isStartMsg m) := by
  by_cases hA : agentBranch m = true
  · by_cases h1 : m.event.getD "" = "start"
    · rw [stepMsgCore_start st m hA h1]
      simp [isStartMsg, hA, h1]
    · have hns : isStartMsg m = false := by simp [isStartMsg, h1]
      cases hcur : st.current with
      | none =>
        rw [stepMsgCore_agent_nocurrent st m hA h1 hcur]
        simp [hcur, hns]
      | some c =>
        by_cases h2 : m.event.getD "" = "complete"
        · rw [stepMsgCore_complete st m c hA h2 hcur]; simp [hcur, hns]
        · by_cases h3 : m.event.getD "" = "input"
          · rw [stepMsgCore_input st m c hA h3 hcur]; simp [hcur, hns]
          · by_cases h4 : m.event.getD "" = "llm_response"
            · rw [stepMsgCore_llmResponse st m c hA h4 hcur]; simp [hcur, hns]
            · rw [stepMsgCore_agent_other st m hA h1 h2 h3 h4]; simp [hcur, hns]
  · have hA2 : agentBranch m = false := by simpa using hA
    have hns : isStartMsg m = false := by simp [isStartMsg, hA2]
    by_cases hT : toolBranch m = true
    · cases hcur : st.current with
      | none => rw [stepMsgCore_tool_none st m hA2 hT hcur]; simp [hcur, hns]
      | some c => rw [stepMsgCore_tool st m c hA2 hT hcur]; simp [hcur, hns]
    · have hT2 : toolBranch m = false := by simpa using hT
      by_cases hL : (m.mtype == some "llm_call") = true
      · cases hcur : st.current with
        | none => rw [stepMsgCore_other st m hA2 hT2 (Or.inl hcur)]; simp [hcur, hns]
        | some c => rw [stepMsgCore_llmCall st m c hA2 hT2 hL hcur]; simp [hcur, hns]
      · rw [stepMsgCore_other st m hA2 hT2 (Or.inr (by simpa using hL))]
        simp [hns]

/-- Same fact over a full loop iteration. -/
theorem stepMsg_current_isSome (st : TState) (m : Msg) :
    (stepMsg st m).current.isSome = (st.current.isSome || isStartMsg m) := by
  unfold stepMsg
  rw [stepMsgCore_current_isSome, updTraceId_current]

/-- Over any run, the current span exists exactly when some `start`
event has been processed. -/
theorem foldl_current_isSome (msgs : List Msg) (st : TState) :
    ((msgs.foldl stepMsg st).current).isSome = (st.current.isSome || msgs.any isStartMsg) := by
  induction msgs generalizing st with
  | nil => simp
  | cons m rest ih =>
    simp only [List.foldl_cons, List.any_cons]
    rw [ih, stepMsg_current_isSome]
    cases st.current.isSome <;> cases isStartMsg m <;> simp

theorem runMsgs_current_isSome (msgs : List Msg) :
    (runMsgs msgs).current.isSome = msgs.any isStartMsg := by
  unfold runMsgs
  rw [foldl_current_isSome]
  simp [TState.init]

/-- A tool message adds one child when a current span exists and none
otherwise. -/
theorem totalChildren_tool (st : TState) (m : Msg) (hA : agentBranch m = false)
    (hT : toolBranch m = true) :
    totalChildren (stepMsgCore st m) =
      totalChildren st + (if st.current.isSome then 1 else 0) := by
  cases hcur : st.current with
  | none =>
    rw [stepMsgCore_tool_none st m hA hT hcur]
    simp [hcur]
  | some c =>
    rw [stepMsgCore_tool st m c hA hT hcur]
    simp [totalChildren, TState.spans, hcur]
    omega

/-! ## Claim C10 -/

/-- C10: every span produced by the reconstruction has status
`"running"` or `"success"`; the `"error"` status of the span status
domain is never assigned. -/
theorem c10_status_running_or_success (msgs : List Msg) (s : Span)
    (hs : s ∈ (get_traces msgs).traces) :
    s.status = "running" ∨ s.status = "success" := by
  unfold get_traces at hs
  split at hs
  · simp at hs
  · exact runMsgs_status_invariant (fun t => t = "running" ∨ t = "success")
      (Or.inl rfl) (Or.inr rfl) msgs s hs

theorem c10_status_running_or_success_witness :
    (mkSpan exStart).status = "running" ∨ (mkSpan exStart).status = "success" :=
  c10_status_running_or_success [exStart] (mkSpan exStart) (by decide)

/-! ## Claim C1 -/

/-- C1 counterexample: in the log `[start, complete, tool]` the tool
event arrives after `complete` has closed the span, yet it is not
dropped: it is appended to the closed span's children, because the
source never clears `current_span`. -/
theorem c1_orphan_attached_counterexample :
    ¬ (∀ s ∈ (get_traces [exStart, exComplete, exTool]).traces, s.children = []) := by
  decide

/-- C1 (amended): the current-span reference is set by `start` events
and never cleared (in particular not by `complete`), so a tool event is
dropped exactly when no `start` has been processed yet; otherwise it is
appended to the most recently started span even after that span
completed. -/
theorem c1_current_persists (msgs : List Msg) (m : Msg)
    (hA : agentBranch m = false) (hT : toolBranch m = true) :
    (runMsgs msgs).current.isSome = msgs.any isStartMsg ∧
      totalChildren (runMsgs (msgs ++ [m])) =
        totalChildren (runMsgs msgs) + (if msgs.any isStartMsg then 1 else 0) := by
  refine ⟨runMsgs_current_isSome msgs, ?_⟩
  have happ : runMsgs (msgs ++ [m]) = stepMsg (runMsgs msgs) m := by
    unfold runMsgs
    rw [List.foldl_append]
    rfl
  have hstep : totalChildren (stepMsg (runMsgs msgs) m) =
      totalChildren (runMsgs msgs) + (if (runMsgs msgs).current.isSome then 1 else 0) := by
    unfold stepMsg
    rw [totalChildren_tool _ m hA hT, updTraceId_current]
    congr 1
    unfold totalChildren
    rw [updTraceId_spans]
  rw [happ, hstep, runMsgs_current_isSome msgs]

theorem c1_current_persists_witness :
    (runMsgs [exStart]).current.isSome = [exStart].any isStartMsg ∧
      totalChildren (runMsgs ([exStart] ++ [exTool])) =
        totalChildren (runMsgs [exStart]) + (if [exStart].any isStartMsg then 1 else 0) :=
  c1_current_persists [exStart] exTool (by decide) (by decide)

/-! ## Claim C3 -/

/-- C3 counterexample: for the two-character response `"hi"` the engine
records the preview `"hi"`, not the claimed first-200-characters
followed by a truncation marker (`"hi..."`); the marker is appended only
when the response exceeds 200 characters. -/
theorem c3_preview_marker_counterexample :
    ¬ ((get_traces [exStart, exLlmResponse, exComplete]).traces.map
        (fun s => s.llm_calls.map (fun l => l.response_preview))) =
      [[some (pyTake "hi" 200 ++ "...")]] := by
  decide

/-- C3 (amended): an `llm_response` event with a current span and a
`response` payload appends one LLM record to that span's `llm_calls`
list (kept separately from the tool-call `children`), with the preview
equal to the response itself when it has at most 200 characters and to
its first 200 characters followed by `"..."` otherwise, and with
`response_length` the full length. -/
theorem c3_llm_response_appended (st : TState) (m : Msg) (c : Span) (r : String)
    (hA : agentBranch m = true) (hev : m.event.getD "" = "llm_response")
    (hc : st.current = some c) (hr : m.data.response = some r) :
    (stepMsg st m).current = some { c with llm_calls := c.llm_calls ++
      [{ timestamp := m.timestamp, ltype := "llm_response",
         response_preview := some (if r.length > 200 then pyTake r 200 ++ "..." else r),
         response_length := some (r.length : Int),
         model := none, tokens := none, latency_ms := none }] } := by
  unfold stepMsg
  rw [stepMsgCore_llmResponse _ m c hA hev (by rw [updTraceId_current]; exact hc)]
  simp [mkLlmResponseCall, hr]

theorem c3_llm_response_appended_witness :
    (stepMsg ⟨[], some (mkSpan exStart), none⟩ exLlmResponse).current =
      some { mkSpan exStart with llm_calls := (mkSpan exStart).llm_calls ++
        [{ timestamp := exLlmResponse.timestamp, ltype := "llm_response",
           response_preview :=
             some (if ("hi" : String).length > 200 then pyTake "hi" 200 ++ "..." else "hi"),
           response_length := some ((("hi" : String).length : Int)),
           model := none, tokens := none, latency_ms := none }] } :=
  c3_llm_response_appended ⟨[], some (mkSpan exStart), none⟩ exLlmResponse (mkSpan exStart)
    "hi" (by decide) (by decide) rfl (by decide)

/-! ## Claim C4 -/

/-- C4 counterexample: a `complete` event carrying no `duration_ms` key
leaves the closed span with a null duration although both of its
timestamps are present — no start/end delta is ever computed. -/
theorem c4_duration_counterexample :
    ((get_traces [exStart, exCompleteNoDuration]).traces.map
      (fun s => (s.status, s.start_time.isSome, s.end_time.isSome, s.duration_ms))) =
      [("success", true, true, (none : Option Int))] := by
  decide

/-- C4 (amended): the `complete` handler closes the current span with
`end_time` the event timestamp and `duration_ms` exactly the event's
`duration_ms` field — null when that field is absent; no delta between
the timestamps is computed. -/
theorem c4_complete_sets_duration_field (st : TState) (m : Msg) (c : Span)
    (hA : agentBranch m = true) (hev : m.event.getD "" = "complete")
    (hc : st.current = some c) :
    (stepMsg st m).current = some (completeSpan m c) ∧
      (completeSpan m c).duration_ms = m.duration_ms ∧
      (completeSpan m c).end_time = m.timestamp ∧
      (completeSpan m c).status = "success" := by
  refine ⟨?_, rfl, rfl, rfl⟩
  unfold stepMsg
  rw [stepMsgCore_complete _ m c hA hev (by rw [updTraceId_current]; exact hc)]

theorem c4_complete_sets_duration_field_witness :
    (stepMsg ⟨[], some (mkSpan exStart), none⟩ exCompleteNoDuration).current =
      some (completeSpan exCompleteNoDuration (mkSpan exStart)) ∧
      (completeSpan exCompleteNoDuration (mkSpan exStart)).duration_ms =
        exCompleteNoDuration.duration_ms ∧
      (completeSpan exCompleteNoDuration (mkSpan exStart)).end_time =
        exCompleteNoDuration.timestamp ∧
      (completeSpan exCompleteNoDuration (mkSpan exStart)).status = "success" :=
  c4_complete_sets_duration_field ⟨[], some (mkSpan exStart), none⟩ exCompleteNoDuration
    (mkSpan exStart) (by decide) (by decide) rfl

/-! ## Claim C9 -/

/-- C9: a missing or unparsable backing log reads as the empty sequence
(the embedding is total, so no exception escapes), and reconstruction on
that empty sequence yields zero spans. -/
theorem c9_unreadable_log_empty (f : JsonFile)
    (h : f = JsonFile.missing ∨ f = JsonFile.unparsable) :
    read_json_file f [] = [] ∧ (get_traces (read_json_file f [])).traces = [] := by
  rcases h with h | h <;> subst h <;> exact ⟨rfl, rfl⟩

theorem c9_unreadable_log_empty_witness :
    read_json_file JsonFile.missing [] = [] ∧
      (get_traces (read_json_file JsonFile.missing [])).traces = [] :=
  c9_unreadable_log_empty JsonFile.missing (Or.inl rfl)

/-! ## Claim C5 -/

/-- C5 counterexample: with a missing original artifact but a stored
patch status `"applied"`, the response status is `"applied"`, not the
claimed `"pending"` — the status field is read from the store, not
derived from artifact availability. -/
theorem c5_status_counterexample :
    (get_patch (some "applied") none (some "y")).status ≠ "pending" := by
  decide

/-- C5 (amended): when an artifact is unavailable the response carries
an empty diff and zero counters, and its status is the stored patch
status, the default `"pending"` being used only when no status was
stored. -/
theorem c5_missing_artifact_empty_diff (ps o f : Option String) (h : o = none ∨ f = none) :
    (get_patch ps o f).diff = [] ∧ (get_patch ps o f).additions = 0 ∧
      (get_patch ps o f).deletions = 0 ∧ (get_patch ps o f).status = ps.getD "pending" := by
  rcases h with h | h <;> subst h
  · cases f <;> simp [get_patch, getPatchDiff]
  · cases o <;> simp [get_patch, getPatchDiff]

theorem c5_missing_artifact_empty_diff_witness :
    (get_patch (some "applied") (some "x") none).diff = [] ∧
      (get_patch (some "applied") (some "x") none).additions = 0 ∧
      (get_patch (some "applied") (some "x") none).deletions = 0 ∧
      (get_patch (some "applied") (some "x") none).status = (some "applied").getD "pending" :=
  c5_missing_artifact_empty_diff (some "applied") (some "x") none (Or.inr rfl)

/-! ## Claim C2 -/

/-- C2 counterexample: for an empty original artifact and modified
lines `["a", "b"]` the claim predicts the wholly-added diff with
`additions = 2`; the code's truthiness guard skips the diff entirely
and reports zero additions. -/
theorem c2_empty_original_counterexample :
    (getPatchDiff (some "") (some "a\nb")).additions ≠ 2 := by
  decide

/-- C2 (amended): when either artifact is absent or empty the guard
`if original_content and fixed_content` skips the diff computation, so
the result is the empty diff with zero counters; the wholly-added or
wholly-removed rendering is never produced. -/
theorem c2_empty_side_skips_diff (o f : Option String)
    (h : o = none ∨ o = some "" ∨ f = none ∨ f = some "") :
    getPatchDiff o f = ⟨[], 0, 0⟩ := by
  rcases h with h | h | h | h <;> subst h
  · cases f <;> simp [getPatchDiff]
  · cases f <;> simp [getPatchDiff]
  · cases o <;> simp [getPatchDiff]
  · cases o <;> simp [getPatchDiff]

theorem c2_empty_side_skips_diff_witness :
    getPatchDiff (some "") (some "a\nb") = ⟨[], 0, 0⟩ :=
  c2_empty_side_skips_diff (some "") (some "a\nb") (Or.inr (Or.inl rfl))

/-! ## Decimal printing and parsing lemmas -/

theorem strData_append (a b : String) : (a ++ b).data = a.data ++ b.data := by
  cases a; cases b; rfl

theorem natToCharsAux_append (n : Nat) (acc : List Char) :
    natToCharsAux n acc = natToCharsAux n [] ++ acc := by
  induction n using Nat.strong_induction_on generalizing acc with
  | _ n ih =>
    by_cases h : n < 10
    · rw [natToCharsAux, if_pos h, natToCharsAux, if_pos h]
      rfl
    · have hlt : n / 10 < n := Nat.div_lt_self (by omega) (by omega)
      rw [natToCharsAux, if_neg h, ih _ hlt (digitChar (n % 10) :: acc)]
      conv_rhs => rw [natToCharsAux, if_neg h, ih _ hlt [digitChar (n % 10)]]
      simp

theorem natToCharsAux_mem (n : Nat) :
    ∀ c ∈ natToCharsAux n [], ∃ m, m < 10 ∧ c = digitChar m := by
  induction n using Nat.strong_induction_on with
  | _ n ih =>
    intro c hc
    rw [natToCharsAux] at hc
    by_cases h : n < 10
    · rw [if_pos h] at hc
      simp at hc
      exact ⟨n, h, hc⟩
    · rw [if_neg h, natToCharsAux_append] at hc
      rcases List.mem_append.mp hc with h1 | h1
      · exact ih (n / 10) (Nat.div_lt_self (by omega) (by omega)) c h1
      · simp at h1
        exact ⟨n % 10, Nat.mod_lt n (by omega), h1⟩

theorem natToCharsAux_ne_nil (n : Nat) : natToCharsAux n [] ≠ [] := by
  rw [natToCharsAux]
  by_cases h : n < 10
  · simp [h]
  · rw [if_neg h, natToCharsAux_append]
    simp

/-- Facts about the ten digit characters, by evaluation. -/
theorem digitChar_facts : ∀ m, m < 10 →
    (digitChar m).isDigit = true ∧ digitVal (digitChar m) = m ∧
    (digitChar m).isWhitespace = false ∧ digitChar m ≠ ',' := by decide

theorem foldl_natToChars (n : Nat) : ∀ v : Nat,
    (natToCharsAux n []).foldl (fun a c => a * 10 + digitVal c) v =
      v * 10 ^ (natToCharsAux n []).length + n := by
  induction n using Nat.strong_induction_on with
  | _ n ih =>
    intro v
    by_cases h : n < 10
    · rw [natToCharsAux, if_pos h]
      simp only [List.foldl_cons, List.foldl_nil, List.length_singleton, pow_one]
      rw [(digitChar_facts n h).2.1]
    · have hlt : n / 10 < n := Nat.div_lt_self (by omega) (by omega)
      rw [natToCharsAux, if_neg h, natToCharsAux_append, List.foldl_append, List.length_append]
      rw [ih (n / 10) hlt v]
      simp only [List.foldl_cons, List.foldl_nil, List.length_singleton]
      rw [(digitChar_facts (n % 10) (Nat.mod_lt n (by omega))).2.1]
      rw [pow_succ, ← Nat.mul_assoc]
      generalize (v * 10 ^ (natToCharsAux (n / 10) []).length) = A
      omega

theorem parseDigits_natToChars (n : Nat) : parseDigits (natToCharsAux n []) = some n := by
  have hall : (natToCharsAux n []).all Char.isDigit = true := by
    rw [List.all_eq_true]
    intro c hc
    obtain ⟨m, hm, rfl⟩ := natToCharsAux_mem n c hc
    exact (digitChar_facts m hm).1
  unfold parseDigits
  rw [if_pos ⟨natToCharsAux_ne_nil n, hall⟩, foldl_natToChars n 0]
  simp

theorem takeWhile_append_all {p : Char → Bool} (l l2 : List Char) (h : ∀ c ∈ l, p c = true) :
    (l ++ l2).takeWhile p = l ++ l2.takeWhile p := by
  induction l with
  | nil => simp
  | cons c cs ih =>
    rw [List.cons_append, List.takeWhile_cons, h c (List.mem_cons_self c cs), if_pos rfl]
    rw [ih (fun x hx => h x (List.mem_cons_of_mem c hx))]
    rfl

/-- Digit characters pass the `≠ ','` filter of `takeUntilComma`. -/
theorem digits_pass_comma (n : Nat) :
    ∀ c ∈ natToCharsAux n [], (decide (c ≠ ',')) = true := by
  intro c hc
  obtain ⟨m, hm, rfl⟩ := natToCharsAux_mem n c hc
  simp [(digitChar_facts m hm).2.2.2]

theorem takeUntilComma_digits (k : Nat) :
    takeUntilComma ⟨'-' :: natToCharsAux k []⟩ = ⟨'-' :: natToCharsAux k []⟩ := by
  unfold takeUntilComma
  apply congrArg String.mk
  show ('-' :: natToCharsAux k []).takeWhile (fun c => decide (c ≠ ',')) = _
  rw [List.takeWhile_cons, if_pos (by decide)]
  rw [show natToCharsAux k [] = natToCharsAux k [] ++ ([] : List Char) from by simp,
    takeWhile_append_all _ _ (digits_pass_comma k)]
  simp

theorem takeUntilComma_digits_comma (k : Nat) (t : List Char) :
    takeUntilComma ⟨'-' :: (natToCharsAux k [] ++ ',' :: t)⟩ = ⟨'-' :: natToCharsAux k []⟩ := by
  unfold takeUntilComma
  apply congrArg String.mk
  show ('-' :: (natToCharsAux k [] ++ ',' :: t)).takeWhile (fun c => decide (c ≠ ',')) = _
  rw [List.takeWhile_cons, if_pos (by decide)]
  rw [takeWhile_append_all _ _ (digits_pass_comma k)]
  rw [List.takeWhile_cons, if_neg (by decide)]
  simp

theorem pyInt_neg_digits (k : Nat) :
    pyInt ⟨'-' :: natToCharsAux k []⟩ = some (-(k : Int)) := by
  have h0 : pyInt ⟨'-' :: natToCharsAux k []⟩ =
      (parseDigits (natToCharsAux k [])).map (fun n => -(n : Int)) := rfl
  rw [h0, parseDigits_natToChars]
  rfl

/-- What the `@@` header parsing recovers from the original-range field:
the reported starting line (1-based start of the hunk's original range,
0-based when that range is empty), negated. -/
theorem seed_parse (x y : Nat) :
    pyInt (takeUntilComma ⟨'-' :: (fmtRange x y).data⟩) =
      some (-(((if y - x = 0 then x else x + 1) : Nat) : Int)) := by
  simp only [fmtRange]
  by_cases h1 : y - x = 1
  · rw [if_pos h1, if_neg (by omega)]
    rw [show (String.mk ('-' :: (natStr (x+1)).data)) = ⟨'-' :: natToCharsAux (x+1) []⟩ from rfl]
    rw [takeUntilComma_digits, pyInt_neg_digits]
  · rw [if_neg h1]
    by_cases h0 : y - x = 0
    · rw [if_pos h0, if_pos h0]
      rw [show (String.mk ('-' :: (natStr x ++ ",0").data)) =
            ⟨'-' :: (natToCharsAux x [] ++ ',' :: ['0'])⟩ from by
          apply congrArg String.mk
          rw [strData_append]
          rfl]
      rw [takeUntilComma_digits_comma, pyInt_neg_digits]
    · rw [if_neg h0, if_neg h0]
      rw [show (String.mk ('-' :: (natStr (x+1) ++ "," ++ natStr (y - x)).data)) =
            ⟨'-' :: (natToCharsAux (x+1) [] ++ ',' :: (natStr (y - x)).data)⟩ from by
          apply congrArg String.mk
          rw [strData_append, strData_append]
          simp [natStr]]
      rw [takeUntilComma_digits_comma, pyInt_neg_digits]

/-! ## Splitting and classifying differ output lines -/

theorem wsplitGo_nonws (l : List Char) (h : ∀ c ∈ l, c.isWhitespace = false)
    (l2 acc : List Char) :
    wsplitGo (l ++ l2) acc = wsplitGo l2 (l.reverse ++ acc) := by
  induction l generalizing acc with
  | nil => simp
  | cons c cs ih =>
    rw [List.cons_append]
    show (if c.isWhitespace then _ else wsplitGo (cs ++ l2) (c :: acc)) = _
    rw [if_neg (by simp [h c (by simp)])]
    rw [ih (fun x hx => h x (by simp [hx])) (c :: acc)]
    simp

theorem wsplitGo_ws_cons (c : Char) (h : c.isWhitespace = true) (rest acc : List Char) :
    wsplitGo (c :: rest) acc =
      if acc.isEmpty then wsplitGo rest [] else (⟨acc.reverse⟩ : String) :: wsplitGo rest [] := by
  show (if c.isWhitespace then _ else _) = _
  rw [if_pos h]

theorem wsplitGo_nil (acc : List Char) :
    wsplitGo [] acc = if acc.isEmpty then [] else [(⟨acc.reverse⟩ : String)] := rfl

/-- Splitting a well-formed `@@` hunk header on whitespace. -/
theorem pySplit_header (r1 r2 : List Char)
    (h1 : ∀ c ∈ r1, c.isWhitespace = false) (h2 : ∀ c ∈ r2, c.isWhitespace = false) :
    pySplit ⟨'@' :: '@' :: ' ' :: '-' :: (r1 ++ ' ' :: '+' :: (r2 ++ [' ', '@', '@']))⟩ =
      ["@@", ⟨'-' :: r1⟩, ⟨'+' :: r2⟩, "@@"] := by
  unfold pySplit
  show wsplitGo ('@' :: '@' :: ' ' :: '-' :: (r1 ++ ' ' :: '+' :: (r2 ++ [' ', '@', '@']))) [] = _
  rw [show ('@' :: '@' :: ' ' :: '-' :: (r1 ++ ' ' :: '+' :: (r2 ++ [' ', '@', '@']))) =
        ['@', '@'] ++ (' ' :: ('-' :: r1) ++ (' ' :: ('+' :: r2) ++ (' ' :: ['@', '@']))) from by
      simp]
  rw [wsplitGo_nonws ['@', '@'] (by decide) _ []]
  rw [List.cons_append, wsplitGo_ws_cons ' ' (by decide)]
  rw [if_neg (by simp)]
  rw [wsplitGo_nonws ('-' :: r1) (by
        intro x hx
        rcases List.mem_cons.mp hx with rfl | hx
        · decide
        · exact h1 x hx) _ []]
  rw [List.cons_append, wsplitGo_ws_cons ' ' (by decide)]
  rw [if_neg (by simp)]
  rw [wsplitGo_nonws ('+' :: r2) (by
        intro x hx
        rcases List.mem_cons.mp hx with rfl | hx
        · decide
        · exact h2 x hx) _ []]
  rw [wsplitGo_ws_cons ' ' (by decide)]
  rw [if_neg (by simp)]
  rw [show (['@', '@'] : List Char) = ['@', '@'] ++ [] from by simp]
  rw [wsplitGo_nonws ['@', '@'] (by decide) [] []]
  rw [wsplitGo_nil]
  rw [if_neg (by simp)]
  simp

/-- The characters of a formatted range are digits and commas, never
whitespace. -/
theorem fmtRange_nonws (x y : Nat) : ∀ c ∈ (fmtRange x y).data, c.isWhitespace = false := by
  intro c hc
  have hd : ∀ k : Nat, c ∈ (natStr k).data → c.isWhitespace = false := by
    intro k hck
    obtain ⟨m, hm, rfl⟩ := natToCharsAux_mem k c hck
    exact (digitChar_facts m hm).2.2.1
  simp only [fmtRange] at hc
  split at hc
  · exact hd _ hc
  · split at hc
    · rw [strData_append] at hc
      rcases List.mem_append.mp hc with h | h
      · exact hd _ h
      · have h2 : c = ',' ∨ c = '0' := by simpa using h
        rcases h2 with rfl | rfl <;> decide
    · rw [strData_append, strData_append] at hc
      rcases List.mem_append.mp hc with h | h
      · rcases List.mem_append.mp h with h | h
        · exact hd _ h
        · have h2 : c = ',' := by simpa using h
          subst h2; decide
      · exact hd _ h

/-- Processing a hunk header line reseeds the running line counter to
the hunk's reported original starting line. -/
theorem processLine_header (st : PState) (x y u v : Nat) :
    processLine st ("@@ -" ++ fmtRange x y ++ " +" ++ fmtRange u v ++ " @@") =
      { st with line_num := if y - x = 0 then x else x + 1 } := by
  have hdata : ("@@ -" ++ fmtRange x y ++ " +" ++ fmtRange u v ++ " @@").data =
      '@' :: '@' :: ' ' :: '-' ::
        ((fmtRange x y).data ++ ' ' :: '+' :: ((fmtRange u v).data ++ [' ', '@', '@'])) := by
    rw [strData_append, strData_append, strData_append, strData_append]
    simp
  have hmk : ("@@ -" ++ fmtRange x y ++ " +" ++ fmtRange u v ++ " @@") =
      (⟨'@' :: '@' :: ' ' :: '-' ::
        ((fmtRange x y).data ++ ' ' :: '+' :: ((fmtRange u v).data ++ [' ', '@', '@']))⟩ :
          String) := congrArg String.mk hdata
  have hstart : pyStartsWith ("@@ -" ++ fmtRange x y ++ " +" ++ fmtRange u v ++ " @@") "@@" =
      true := by
    rw [pyStartsWith, hdata]
    rw [show ("@@").data = ['@', '@'] from rfl]
    simp [List.isPrefixOf]
  simp only [processLine]
  rw [if_pos hstart, hmk, pySplit_header _ _ (fmtRange_nonws x y) (fmtRange_nonws u v)]
  rw [if_pos (by simp)]
  rw [show ((["@@", ⟨'-' :: (fmtRange x y).data⟩, ⟨'+' :: (fmtRange u v).data⟩,
        "@@"] : List String).getD 1 "") = ⟨'-' :: (fmtRange x y).data⟩ from rfl]
  rw [seed_parse x y]
  simp only [Int.natAbs_neg]
  split
  · simp
  · simp
    omega

/-- Classification of a removed line: formatted as `-content`; correctly
re-parsed whenever the content does not itself start with `--`. -/
theorem processLine_removed (st : PState) (c : String) (h : pyStartsWith c "--" = false) :
    processLine st ("-" ++ c) =
      { st with rev := ⟨st.line_num, .removed, c⟩ :: st.rev,
                deletions := st.deletions + 1, line_num := st.line_num + 1 } := by
  have hdata : ("-" ++ c).data = '-' :: c.data := by rw [strData_append]; rfl
  have h1 : pyStartsWith ("-" ++ c) "@@" = false := by
    rw [pyStartsWith, hdata, show ("@@").data = ['@', '@'] from rfl]
    simp [List.isPrefixOf]
  have h2 : pyStartsWith ("-" ++ c) "---" = false := by
    rw [pyStartsWith, hdata, show ("---").data = ['-', '-', '-'] from rfl]
    rw [pyStartsWith, show ("--").data = ['-', '-'] from rfl] at h
    simpa [List.isPrefixOf] using h
  have h3 : pyStartsWith ("-" ++ c) "+++" = false := by
    rw [pyStartsWith, hdata, show ("+++").data = ['+', '+', '+'] from rfl]
    simp [List.isPrefixOf]
  have h4 : pyStartsWith ("-" ++ c) "-" = true := by
    rw [pyStartsWith, hdata, show ("-").data = ['-'] from rfl]
    simp [List.isPrefixOf]
  have h5 : pyDrop ("-" ++ c) 1 = c := by
    unfold pyDrop
    rw [hdata]
    show (⟨c.data⟩ : String) = c
    rfl
  simp only [processLine]
  rw [if_neg (by simp [h1]), if_neg (by simp [h2, h3]), if_pos h4, h5]

/-- Classification of an added line: formatted as `+content`; correctly
re-parsed whenever the content does not itself start with `++`. -/
theorem processLine_added (st : PState) (c : String) (h : pyStartsWith c "++" = false) :
    processLine st ("+" ++ c) =
      { st with rev := ⟨st.line_num, .added, c⟩ :: st.rev,
                additions := st.additions + 1 } := by
  have hdata : ("+" ++ c).data = '+' :: c.data := by rw [strData_append]; rfl
  have h1 : pyStartsWith ("+" ++ c) "@@" = false := by
    rw [pyStartsWith, hdata, show ("@@").data = ['@', '@'] from rfl]
    simp [List.isPrefixOf]
  have h2 : pyStartsWith ("+" ++ c) "---" = false := by
    rw [pyStartsWith, hdata, show ("---").data = ['-', '-', '-'] from rfl]
    simp [List.isPrefixOf]
  have h3 : pyStartsWith ("+" ++ c) "+++" = false := by
    rw [pyStartsWith, hdata, show ("+++").data = ['+', '+', '+'] from rfl]
    rw [pyStartsWith, show ("++").data = ['+', '+'] from rfl] at h
    simpa [List.isPrefixOf] using h
  have h4 : pyStartsWith ("+" ++ c) "-" = false := by
    rw [pyStartsWith, hdata, show ("-").data = ['-'] from rfl]
    simp [List.isPrefixOf]
  have h5 : pyStartsWith ("+" ++ c) "+" = true := by
    rw [pyStartsWith, hdata, show ("+").data = ['+'] from rfl]
    simp [List.isPrefixOf]
  have h6 : pyDrop ("+" ++ c) 1 = c := by
    unfold pyDrop
    rw [hdata]
    show (⟨c.data⟩ : String) = c
    rfl
  simp only [processLine]
  rw [if_neg (by simp [h1]), if_neg (by simp [h2, h3]), if_neg (by simp [h4]), if_pos h5, h6]

/-- Classification of a context line: formatted as ` content` and always
re-parsed correctly. -/
theorem processLine_context (st : PState) (c : String) :
    processLine st (" " ++ c) =
      { st with rev := ⟨st.line_num, .context, c⟩ :: st.rev,
                line_num := st.line_num + 1 } := by
  have hdata : (" " ++ c).data = ' ' :: c.data := by rw [strData_append]; rfl
  have h1 : pyStartsWith (" " ++ c) "@@" = false := by
    rw [pyStartsWith, hdata, show ("@@").data = ['@', '@'] from rfl]
    simp [List.isPrefixOf]
  have h2 : pyStartsWith (" " ++ c) "---" = false := by
    rw [pyStartsWith, hdata, show ("---").data = ['-', '-', '-'] from rfl]
    simp [List.isPrefixOf]
  have h3 : pyStartsWith (" " ++ c) "+++" = false := by
    rw [pyStartsWith, hdata, show ("+++").data = ['+', '+', '+'] from rfl]
    simp [List.isPrefixOf]
  have h4 : pyStartsWith (" " ++ c) "-" = false := by
    rw [pyStartsWith, hdata, show ("-").data = ['-'] from rfl]
    simp [List.isPrefixOf]
  have h5 : pyStartsWith (" " ++ c) "+" = false := by
    rw [pyStartsWith, hdata, show ("+").data = ['+'] from rfl]
    simp [List.isPrefixOf]
  have h6 : pyStartsWith (" " ++ c) " " = true := by
    rw [pyStartsWith, hdata, show (" ").data = [' '] from rfl]
    simp [List.isPrefixOf]
  have h7 : pyDrop (" " ++ c) 1 = c := by
    unfold pyDrop
    rw [hdata]
    show (⟨c.data⟩ : String) = c
    rfl
  simp only [processLine]
  rw [if_neg (by simp [h1]), if_neg (by simp [h2, h3]), if_neg (by simp [h4]),
    if_neg (by simp [h5]), if_pos h6, h7]

/-- The two file-header lines emitted before the first hunk are
skipped. -/
theorem processLine_fromfile (st : PState) : processLine st "--- " = st := by
  simp only [processLine]
  rw [if_neg (by decide), if_pos (by decide)]

theorem processLine_tofile (st : PState) : processLine st "+++ " = st := by
  simp only [processLine]
  rw [if_neg (by decide), if_pos (by decide)]

/-! ## Diffing a sequence against itself -/

theorem diffOps_self : ∀ l : List String, diffOps l l = l.map LineOp.eq
  | [] => by rw [diffOps]; rfl
  | x :: xs => by
    rw [diffOps, if_pos rfl, diffOps_self xs]
    rfl
termination_by l => l.length

theorem buildCodes_eqs : ∀ (l : List String) (i j : Nat), l ≠ [] →
    buildCodes (l.map LineOp.eq) i j =
      [⟨Tag.equal, i, i + l.length, j, j + l.length, l⟩]
  | [], _, _, h => absurd rfl h
  | [x], i, j, _ => by
    simp [buildCodes, addEq, newEqCode]
  | x :: y :: ys, i, j, _ => by
    rw [List.map_cons]
    show addEq x i j (buildCodes ((y :: ys).map LineOp.eq) (i + 1) (j + 1)) = _
    rw [buildCodes_eqs (y :: ys) (i + 1) (j + 1) (by simp)]
    simp only [addEq]
    rw [if_true]
    simp only [List.cons.injEq, Code.mk.injEq, List.length_cons, true_and, and_true]
    omega
termination_by l => l.length

/-- A lone `equal` opcode (after the two outer trims) yields no hunk. -/
theorem groupLoop_lone_equal (a1 a2 b1 b2 : Nat) (ls : List String) :
    groupLoop 3 [] (trimLastCode 3 (trimFirstCode 3 [⟨Tag.equal, a1, a2, b1, b2, ls⟩])) = [] := by
  have h1 : trimFirstCode 3 [(⟨Tag.equal, a1, a2, b1, b2, ls⟩ : Code)] =
      [⟨Tag.equal, max a1 (a2 - 3), a2, max b1 (b2 - 3), b2, ls.drop (ls.length - 3)⟩] := rfl
  rw [h1]
  have h2 : trimLastCode 3 [(⟨Tag.equal, max a1 (a2 - 3), a2, max b1 (b2 - 3), b2,
      ls.drop (ls.length - 3)⟩ : Code)] =
      [⟨Tag.equal, max a1 (a2 - 3), min a2 (max a1 (a2 - 3) + 3), max b1 (b2 - 3),
        min b2 (max b1 (b2 - 3) + 3), (ls.drop (ls.length - 3)).take 3⟩] := rfl
  rw [h2]
  simp only [groupLoop]
  rw [if_neg (by rintro ⟨-, hgt⟩; omega)]
  simp [groupLoop, singleEqual]

theorem getGroupedOpcodes_nil : getGroupedOpcodes [] 3 = [] := by
  unfold getGroupedOpcodes
  simp only [List.isEmpty_nil, if_true]
  exact groupLoop_lone_equal 0 1 0 1 []

theorem getGroupedOpcodes_one_equal (a1 a2 b1 b2 : Nat) (ls : List String) :
    getGroupedOpcodes [⟨Tag.equal, a1, a2, b1, b2, ls⟩] 3 = [] := by
  unfold getGroupedOpcodes
  simp only [List.isEmpty_cons, Bool.false_eq_true, if_false]
  exact groupLoop_lone_equal a1 a2 b1 b2 ls

theorem diffPipeline_self (l : List String) : diffPipeline l l = ⟨[], 0, 0⟩ := by
  unfold diffPipeline
  rw [diffOps_self]
  cases l with
  | nil =>
    rw [show buildCodes (([] : List String).map LineOp.eq) 0 0 = ([] : List Code) from rfl]
    rw [getGroupedOpcodes_nil]
    rfl
  | cons x xs =>
    rw [buildCodes_eqs (x :: xs) 0 0 (by simp), getGroupedOpcodes_one_equal]
    rfl

/-! ## Claim C7 -/

/-- C7: diffing any text against itself yields the empty diff with zero
addition and deletion counts (for the empty text because the guard skips
the diff, for any other text because the aligner keeps every line and a
lone `equal` opcode produces no hunk). -/
theorem c7_diff_self_empty (s : String) : getPatchDiff (some s) (some s) = ⟨[], 0, 0⟩ := by
  show (if s ≠ "" ∧ s ≠ "" then diffPipeline (splitLines s) (splitLines s) else ⟨[], 0, 0⟩) = _
  by_cases h : s = ""
  · rw [if_neg (by simp [h])]
  · rw [if_pos ⟨h, h⟩]
    exact diffPipeline_self _

/-! ## Round trip: formatted hunks re-parse to the spec's numbering -/

theorem sum_map_const_zero {α : Type} (l : List α) : (l.map (fun _ => (0 : Nat))).sum = 0 := by
  induction l <;> simp [*]

theorem sum_map_const_one {α : Type} (l : List α) : (l.map (fun _ => (1 : Nat))).sum = l.length := by
  induction l with
  | nil => simp
  | cons x xs ih => simp [ih]; omega

/-- A formatted opcode is the `lineOfKind` rendering of its classified
lines. -/
theorem fmtCode_kindLines (c : Code) : fmtCode c = (codeKindLines c).map lineOfKind := by
  cases htag : c.tag <;>
    simp [fmtCode, codeKindLines, htag, lineOfKind, List.map_map, Function.comp_def]

theorem kindLines_addedOne (c : Code) :
    ((codeKindLines c).map addedOne).sum = codeInsCount c := by
  cases htag : c.tag <;>
    simp [codeKindLines, htag, addedOne, codeInsCount, List.map_map, Function.comp_def,
      sum_map_const_zero, sum_map_const_one]

theorem kindLines_removedOne (c : Code) :
    ((codeKindLines c).map removedOne).sum = codeDelCount c := by
  cases htag : c.tag <;>
    simp [codeKindLines, htag, removedOne, codeDelCount, List.map_map, Function.comp_def,
      sum_map_const_zero, sum_map_const_one]

theorem kindLines_srcOne (c : Code) :
    ((codeKindLines c).map srcOne).sum = codeSrcCount c := by
  cases htag : c.tag <;>
    simp [codeKindLines, htag, srcOne, codeSrcCount, List.map_map, Function.comp_def,
      sum_map_const_zero, sum_map_const_one]

/-- Benignity of a hunk transfers to its classified lines. -/
theorem kindLines_benign (g : List Code) (hb : groupBenign g) :
    ∀ p ∈ (g.map codeKindLines).flatten,
      (p.1 = DiffKind.removed → pyStartsWith p.2 "--" = false) ∧
      (p.1 = DiffKind.added → pyStartsWith p.2 "++" = false) := by
  intro p hp
  rw [List.mem_flatten] at hp
  obtain ⟨l, hl, hpl⟩ := hp
  rw [List.mem_map] at hl
  obtain ⟨c, hc, rfl⟩ := hl
  have hbc := hb c hc
  cases htag : c.tag
  case equal =>
    simp [codeKindLines, htag] at hpl
    obtain ⟨s, _, rfl⟩ := hpl
    exact ⟨(fun h => nomatch h), (fun h => nomatch h)⟩
  case delete =>
    simp [codeKindLines, htag] at hpl
    obtain ⟨s, hs, rfl⟩ := hpl
    exact ⟨(fun _ => hbc.1 htag s hs), (fun h => nomatch h)⟩
  case insert =>
    simp [codeKindLines, htag] at hpl
    obtain ⟨s, hs, rfl⟩ := hpl
    exact ⟨(fun h => nomatch h), (fun _ => hbc.2 htag s hs)⟩

/-- Folding the parser over rendered classified lines realises the
spec's numbering discipline and counts. -/
theorem foldl_kindLines (kls : List (DiffKind × String)) :
    ∀ st : PState,
    (∀ p ∈ kls, (p.1 = DiffKind.removed → pyStartsWith p.2 "--" = false) ∧
                (p.1 = DiffKind.added → pyStartsWith p.2 "++" = false)) →
    (kls.map lineOfKind).foldl processLine st =
      { rev := (specNumberLines st.line_num kls).reverse ++ st.rev,
        additions := st.additions + (kls.map addedOne).sum,
        deletions := st.deletions + (kls.map removedOne).sum,
        line_num := st.line_num + (kls.map srcOne).sum } := by
  induction kls with
  | nil => intro st _; simp [specNumberLines]
  | cons p rest ih =>
    intro st h
    obtain ⟨k, s⟩ := p
    cases k with
    | added =>
      rw [List.map_cons, List.foldl_cons,
        show lineOfKind (DiffKind.added, s) = "+" ++ s from rfl,
        processLine_added st s ((h (DiffKind.added, s) (by simp)).2 rfl),
        ih _ (fun q hq => h q (by simp [hq]))]
      simp [specNumberLines, addedOne, removedOne, srcOne, List.append_assoc]
      omega
    | removed =>
      rw [List.map_cons, List.foldl_cons,
        show lineOfKind (DiffKind.removed, s) = "-" ++ s from rfl,
        processLine_removed st s ((h (DiffKind.removed, s) (by simp)).1 rfl),
        ih _ (fun q hq => h q (by simp [hq]))]
      simp [specNumberLines, addedOne, removedOne, srcOne, List.append_assoc]
      omega
    | context =>
      rw [List.map_cons, List.foldl_cons,
        show lineOfKind (DiffKind.context, s) = " " ++ s from rfl,
        processLine_context st s,
        ih _ (fun q hq => h q (by simp [hq]))]
      simp [specNumberLines, addedOne, removedOne, srcOne, List.append_assoc]
      omega

theorem sum_map_flatten_kindLines (L : List Code) (fmap : (DiffKind × String) → Nat)
    (per : Code → Nat) (hper : ∀ c, ((codeKindLines c).map fmap).sum = per c) :
    (((L.map codeKindLines).flatten).map fmap).sum = (L.map per).sum := by
  induction L with
  | nil => simp
  | cons c cs ih =>
    simp only [List.map_cons, List.flatten_cons, List.map_append, List.sum_append, ih, hper,
      List.sum_cons]

/-- Folding the parser over one formatted hunk: header reseeds the
counter, body realises the discipline, counters advance by the hunk's
added/removed line counts. -/
theorem foldl_fmtGroup (f : Code) (gr : List Code) (hb : groupBenign (f :: gr)) (st : PState) :
    (fmtGroup (f :: gr)).foldl processLine st =
      { rev := (specNumberLines (reportedStart (f :: gr))
          (((f :: gr).map codeKindLines).flatten)).reverse ++ st.rev,
        additions := st.additions + ((f :: gr).map codeInsCount).sum,
        deletions := st.deletions + ((f :: gr).map codeDelCount).sum,
        line_num := reportedStart (f :: gr) + ((f :: gr).map codeSrcCount).sum } := by
  obtain ⟨l, hl⟩ : ∃ l, (f :: gr).getLast? = some l := by
    cases hgl : (f :: gr).getLast? with
    | some l => exact ⟨l, rfl⟩
    | none => simp at hgl
  have hfmt : fmtGroup (f :: gr) =
      ("@@ -" ++ fmtRange f.a1 l.a2 ++ " +" ++ fmtRange f.b1 l.b2 ++ " @@")
        :: ((f :: gr).map fmtCode).flatten := by
    unfold fmtGroup
    rw [show (f :: gr).head? = some f from rfl, hl]
  have hrs : reportedStart (f :: gr) = if l.a2 - f.a1 = 0 then f.a1 else f.a1 + 1 := by
    unfold reportedStart
    rw [show (f :: gr).head? = some f from rfl, hl]
  have hmap : ∀ L : List Code, ((L.map fmtCode).flatten) =
      ((L.map codeKindLines).flatten).map lineOfKind := by
    intro L
    induction L with
    | nil => simp
    | cons c cs ih => simp [fmtCode_kindLines c, ih]
  rw [hfmt, List.foldl_cons, processLine_header st f.a1 l.a2 f.b1 l.b2]
  rw [hmap (f :: gr), foldl_kindLines _ _ (kindLines_benign _ hb)]
  rw [sum_map_flatten_kindLines _ _ _ kindLines_addedOne,
      sum_map_flatten_kindLines _ _ _ kindLines_removedOne,
      sum_map_flatten_kindLines _ _ _ kindLines_srcOne, ← hrs]

/-- Folding the parser over every formatted hunk. -/
theorem foldl_groups (gs : List (List Code)) :
    ∀ st : PState, groupsBenign gs → (∀ g ∈ gs, g ≠ []) →
    ((gs.map fmtGroup).flatten).foldl processLine st =
      { rev := (specNumberedDiff gs).reverse ++ st.rev,
        additions := st.additions + groupsInsCount gs,
        deletions := st.deletions + groupsDelCount gs,
        line_num := groupsEndNum st.line_num gs } := by
  induction gs with
  | nil =>
    intro st _ _
    simp [specNumberedDiff, groupsInsCount, groupsDelCount, groupsEndNum]
  | cons g rest ih =>
    intro st hb hne
    obtain ⟨f, gr, rfl⟩ := List.exists_cons_of_ne_nil (hne g (by simp))
    rw [List.map_cons, List.flatten_cons, List.foldl_append]
    rw [foldl_fmtGroup f gr (hb _ (by simp)) st]
    rw [ih _ (fun g' hg' => hb g' (by simp [hg'])) (fun g' hg' => hne g' (by simp [hg']))]
    simp only [specNumberedDiff, List.map_cons, List.flatten_cons, List.reverse_append,
      List.append_assoc, groupsInsCount, groupsDelCount, groupsEndNum, List.sum_cons,
      List.foldl_cons, PState.mk.injEq]
    exact ⟨by trivial, by omega, by omega, by trivial⟩

/-- Round trip: for benign hunks, re-parsing the `unified_diff` text
recovers exactly the spec-numbered diff records and the per-kind line
counts. -/
theorem processDiff_roundtrip (gs : List (List Code)) (hb : groupsBenign gs)
    (hne : ∀ g ∈ gs, g ≠ []) :
    processDiffLines (unifiedDiffLines gs) =
      ⟨specNumberedDiff gs, groupsInsCount gs, groupsDelCount gs⟩ := by
  cases gs with
  | nil => rfl
  | cons g rest =>
    unfold processDiffLines unifiedDiffLines
    rw [List.foldl_cons, List.foldl_cons, processLine_fromfile, processLine_tofile]
    rw [foldl_groups (g :: rest) _ hb hne]
    simp

/-! ## Counting removed and inserted lines -/

theorem lcsLen_nil_left (b : List String) : lcsLen [] b = 0 := by
  cases b <;> simp [lcsLen]

theorem lcsLen_nil_right (a : List String) : lcsLen a [] = 0 := by
  cases a <;> simp [lcsLen]

theorem lcsLen_comm : ∀ a b : List String, lcsLen a b = lcsLen b a
  | [], b => by rw [lcsLen_nil_left, lcsLen_nil_right]
  | a :: as2, [] => by rw [lcsLen_nil_left, lcsLen_nil_right]
  | x :: xs, y :: ys => by
    by_cases hxy : x = y
    · subst hxy
      rw [lcsLen, lcsLen, if_pos rfl, if_pos rfl, lcsLen_comm xs ys]
    · rw [lcsLen, lcsLen, if_neg hxy, if_neg (fun h => hxy h.symm)]
      rw [lcsLen_comm xs (y :: ys), lcsLen_comm (x :: xs) ys, Nat.max_comm]
termination_by a b => a.length + b.length

theorem lcsLen_le_left : ∀ a b : List String, lcsLen a b ≤ a.length
  | [], b => by rw [lcsLen_nil_left]; simp
  | a :: as2, [] => by rw [lcsLen_nil_right]; simp
  | x :: xs, y :: ys => by
    by_cases hxy : x = y
    · rw [lcsLen, if_pos hxy]
      have := lcsLen_le_left xs ys
      simp only [List.length_cons]
      omega
    · rw [lcsLen, if_neg hxy]
      have h1 := lcsLen_le_left xs (y :: ys)
      have h2 := lcsLen_le_left (x :: xs) ys
      simp only [List.length_cons] at h2 ⊢
      omega
termination_by a b => a.length + b.length

theorem lcsLen_le_right (a b : List String) : lcsLen a b ≤ b.length := by
  rw [lcsLen_comm]
  exact lcsLen_le_left b a

theorem diffOps_delCount : ∀ a b : List String,
    opsDelCount (diffOps a b) = a.length - lcsLen a b
  | [], [] => by rw [diffOps, lcsLen_nil_left]; rfl
  | [], y :: ys => by
    rw [diffOps]
    have ih := diffOps_delCount [] ys
    simp only [opsDelCount, List.countP_cons, lcsLen_nil_left, List.length_nil] at ih ⊢
    simpa using ih
  | x :: xs, [] => by
    rw [diffOps]
    have ih := diffOps_delCount xs []
    simp only [opsDelCount, List.countP_cons, lcsLen_nil_right, List.length_cons,
      List.length_nil] at ih ⊢
    simp at ih ⊢
    omega
  | x :: xs, y :: ys => by
    by_cases hxy : x = y
    · rw [diffOps, if_pos hxy, lcsLen, if_pos hxy]
      have ih := diffOps_delCount xs ys
      have hle := lcsLen_le_left xs ys
      simp only [opsDelCount, List.countP_cons, List.length_cons] at ih ⊢
      simp at ih ⊢
      omega
    · rw [diffOps, if_neg hxy, lcsLen, if_neg hxy]
      by_cases hge : lcsLen xs (y :: ys) ≥ lcsLen (x :: xs) ys
      · rw [if_pos hge]
        have ih := diffOps_delCount xs (y :: ys)
        have hle := lcsLen_le_left xs (y :: ys)
        have hmax : max (lcsLen xs (y :: ys)) (lcsLen (x :: xs) ys) = lcsLen xs (y :: ys) :=
          Nat.max_eq_left hge
        simp only [opsDelCount, List.countP_cons, List.length_cons, hmax] at ih ⊢
        simp at ih ⊢
        omega
      · rw [if_neg hge]
        have ih := diffOps_delCount (x :: xs) ys
        have hle := lcsLen_le_left (x :: xs) ys
        have hmax : max (lcsLen xs (y :: ys)) (lcsLen (x :: xs) ys) = lcsLen (x :: xs) ys :=
          Nat.max_eq_right (by omega)
        simp only [opsDelCount, List.countP_cons, List.length_cons, hmax] at ih ⊢
        simp at ih ⊢
        omega
termination_by a b => a.length + b.length

theorem diffOps_insCount : ∀ a b : List String,
    opsInsCount (diffOps a b) = b.length - lcsLen a b
  | [], [] => by rw [diffOps, lcsLen_nil_left]; rfl
  | [], y :: ys => by
    rw [diffOps]
    have ih := diffOps_insCount [] ys
    simp only [opsInsCount, List.countP_cons, lcsLen_nil_left, List.length_cons] at ih ⊢
    simp at ih ⊢
    omega
  | x :: xs, [] => by
    rw [diffOps]
    have ih := diffOps_insCount xs []
    simp only [opsInsCount, List.countP_cons, lcsLen_nil_right, List.length_nil] at ih ⊢
    simpa using ih
  | x :: xs, y :: ys => by
    by_cases hxy : x = y
    · rw [diffOps, if_pos hxy, lcsLen, if_pos hxy]
      have ih := diffOps_insCount xs ys
      have hle := lcsLen_le_right xs ys
      simp only [opsInsCount, List.countP_cons, List.length_cons] at ih ⊢
      simp at ih ⊢
      omega
    · rw [diffOps, if_neg hxy, lcsLen, if_neg hxy]
      by_cases hge : lcsLen xs (y :: ys) ≥ lcsLen (x :: xs) ys
      · rw [if_pos hge]
        have ih := diffOps_insCount xs (y :: ys)
        have hle := lcsLen_le_right xs (y :: ys)
        have hmax : max (lcsLen xs (y :: ys)) (lcsLen (x :: xs) ys) = lcsLen xs (y :: ys) :=
          Nat.max_eq_left hge
        simp only [opsInsCount, List.countP_cons, List.length_cons, hmax] at ih ⊢
        simp at ih ⊢
        omega
      · rw [if_neg hge]
        have ih := diffOps_insCount (x :: xs) ys
        have hle := lcsLen_le_right (x :: xs) ys
        have hmax : max (lcsLen xs (y :: ys)) (lcsLen (x :: xs) ys) = lcsLen (x :: xs) ys :=
          Nat.max_eq_right (by omega)
        simp only [opsInsCount, List.countP_cons, List.length_cons, hmax] at ih ⊢
        simp at ih ⊢
        omega
termination_by a b => a.length + b.length

/-- Any per-opcode counter that vanishes on `equal` opcodes is
preserved by the `equal`-merging constructor. -/
theorem addEq_sumF (F : Code → Nat) (hF : ∀ c, c.tag = Tag.equal → F c = 0)
    (s : String) (i j : Nat) (cs : List Code) :
    ((addEq s i j cs).map F).sum = ((cs.map F).sum) := by
  cases cs with
  | nil =>
    simp [addEq, hF (newEqCode s i j) rfl]
  | cons c cs2 =>
    by_cases h : c.tag = Tag.equal
    · rw [addEq, if_pos h]
      simp [hF _ h, hF { c with a1 := i, b1 := j, ls := s :: c.ls } h]
    · rw [addEq, if_neg h]
      simp [hF (newEqCode s i j) rfl]

theorem codeDelCount_equal (c : Code) (h : c.tag = Tag.equal) : codeDelCount c = 0 := by
  simp [codeDelCount, h]

theorem codeInsCount_equal (c : Code) (h : c.tag = Tag.equal) : codeInsCount c = 0 := by
  simp [codeInsCount, h]

theorem buildCodes_delSum : ∀ (ops : List LineOp) (i j : Nat),
    ((buildCodes ops i j).map codeDelCount).sum = opsDelCount ops := by
  intro ops
  induction ops with
  | nil => intro i j; simp [buildCodes, opsDelCount]
  | cons op rest ih =>
    intro i j
    cases op with
    | eq s =>
      rw [buildCodes, addEq_sumF codeDelCount codeDelCount_equal, ih]
      simp [opsDelCount, List.countP_cons]
    | del s =>
      rw [buildCodes]
      simp only [List.map_cons, List.sum_cons, ih]
      simp [opsDelCount, List.countP_cons, codeDelCount]
      omega
    | ins s =>
      rw [buildCodes]
      simp only [List.map_cons, List.sum_cons, ih]
      simp [opsDelCount, List.countP_cons, codeDelCount]
  
theorem buildCodes_insSum : ∀ (ops : List LineOp) (i j : Nat),
    ((buildCodes ops i j).map codeInsCount).sum = opsInsCount ops := by
  intro ops
  induction ops with
  | nil => intro i j; simp [buildCodes, opsInsCount]
  | cons op rest ih =>
    intro i j
    cases op with
    | eq s =>
      rw [buildCodes, addEq_sumF codeInsCount codeInsCount_equal, ih]
      simp [opsInsCount, List.countP_cons]
    | del s =>
      rw [buildCodes]
      simp only [List.map_cons, List.sum_cons, ih]
      simp [opsInsCount, List.countP_cons, codeInsCount]
    | ins s =>
      rw [buildCodes]
      simp only [List.map_cons, List.sum_cons, ih]
      simp [opsInsCount, List.countP_cons, codeInsCount]
      omega

theorem trimFirst_sumF (F : Code → Nat) (hF : ∀ c, c.tag = Tag.equal → F c = 0)
    (n : Nat) (cs : List Code) :
    ((trimFirstCode n cs).map F).sum = (cs.map F).sum := by
  cases cs with
  | nil => rfl
  | cons c cs2 =>
    by_cases h : c.tag = Tag.equal
    · rw [trimFirstCode, if_pos h]
      have h1 : F { c with a1 := max c.a1 (c.a2 - n), b1 := max c.b1 (c.b2 - n), ls := c.ls.drop (c.ls.length - n) } = 0 := hF _ h
      have h2 : F c = 0 := hF c h
      simp [h1, h2]
    · rw [trimFirstCode, if_neg h]

theorem trimLast_sumF (F : Code → Nat) (hF : ∀ c, c.tag = Tag.equal → F c = 0)
    (n : Nat) : ∀ cs : List Code, ((trimLastCode n cs).map F).sum = (cs.map F).sum
  | [] => rfl
  | [c] => by
    by_cases h : c.tag = Tag.equal
    · rw [trimLastCode, if_pos h]
      have h1 : F { c with a2 := min c.a2 (c.a1 + n), b2 := min c.b2 (c.b1 + n), ls := c.ls.take n } = 0 := hF _ h
      have h2 : F c = 0 := hF c h
      simp [h1, h2]
    · rw [trimLastCode, if_neg h]
  | c :: c2 :: rest => by
    rw [show trimLastCode n (c :: c2 :: rest) = c :: trimLastCode n (c2 :: rest) from rfl]
    simp only [List.map_cons, List.sum_cons, trimLast_sumF F hF n (c2 :: rest)]

/-- Every hunk emitted by the grouping loop is non-empty. -/
theorem groupLoop_ne_nil (n : Nat) : ∀ (codes group : List Code) (g : List Code),
    g ∈ groupLoop n group codes → g ≠ []
  | [], group, g => by
    intro hg
    rw [groupLoop] at hg
    split at hg
    · simp at hg
    · rename_i hcond
      simp at hg
      subst hg
      intro hnil
      subst hnil
      simp [singleEqual] at hcond
  | c :: rest, group, g => by
    intro hg
    rw [groupLoop] at hg
    split at hg
    · rcases List.mem_cons.mp hg with rfl | hg2
      · simp
      · exact groupLoop_ne_nil n rest _ g hg2
    · exact groupLoop_ne_nil n rest _ g hg

/-- The grouping loop preserves any counter that vanishes on `equal`
opcodes: its hunks together carry exactly the counter total of the
incoming pending group and opcode list. -/
theorem groupLoop_sumF (F : Code → Nat) (hF : ∀ c, c.tag = Tag.equal → F c = 0)
    (n : Nat) : ∀ (codes group : List Code),
    (((groupLoop n group codes).map (fun g => (g.map F).sum)).sum) =
      (group.map F).sum + (codes.map F).sum
  | [], group => by
    rw [groupLoop]
    split
    · rename_i hcond
      rcases Bool.or_eq_true_iff.mp hcond with h | h
      · rw [List.isEmpty_iff.mp h]
        simp
      · cases group with
        | nil => simp
        | cons c cs =>
          cases cs with
          | nil =>
            simp only [singleEqual] at h
            simp [hF c (by simpa using h)]
          | cons c2 cs2 => simp [singleEqual] at h
    · simp
  | c :: rest, group => by
    rw [groupLoop]
    split
    · rename_i hcond
      simp only [List.map_cons, List.sum_cons]
      rw [groupLoop_sumF F hF n rest _]
      simp only [List.map_append, List.sum_append, List.map_cons, List.sum_cons,
        List.map_nil, List.sum_nil]
      rw [hF _ (by simpa using hcond.1), hF _ (by simpa using hcond.1), hF c hcond.1]
      omega
    · rw [groupLoop_sumF F hF n rest _]
      simp only [List.map_append, List.sum_append, List.map_cons, List.sum_cons,
        List.map_nil, List.sum_nil]
      omega

/-- Grouping preserves the two counters. -/
theorem grouped_delSum (codes : List Code) :
    groupsDelCount (getGroupedOpcodes codes 3) = (codes.map codeDelCount).sum := by
  unfold getGroupedOpcodes groupsDelCount
  cases codes with
  | nil =>
    simp only [List.isEmpty_nil, if_true]
    rw [groupLoop_sumF codeDelCount codeDelCount_equal 3,
      trimLast_sumF codeDelCount codeDelCount_equal 3,
      trimFirst_sumF codeDelCount codeDelCount_equal 3]
    simp [codeDelCount]
  | cons c cs =>
    simp only [List.isEmpty_cons, Bool.false_eq_true, if_false]
    rw [groupLoop_sumF codeDelCount codeDelCount_equal 3,
      trimLast_sumF codeDelCount codeDelCount_equal 3,
      trimFirst_sumF codeDelCount codeDelCount_equal 3]
    simp

theorem grouped_insSum (codes : List Code) :
    groupsInsCount (getGroupedOpcodes codes 3) = (codes.map codeInsCount).sum := by
  unfold getGroupedOpcodes groupsInsCount
  cases codes with
  | nil =>
    simp only [List.isEmpty_nil, if_true]
    rw [groupLoop_sumF codeInsCount codeInsCount_equal 3,
      trimLast_sumF codeInsCount codeInsCount_equal 3,
      trimFirst_sumF codeInsCount codeInsCount_equal 3]
    simp [codeInsCount]
  | cons c cs =>
    simp only [List.isEmpty_cons, Bool.false_eq_true, if_false]
    rw [groupLoop_sumF codeInsCount codeInsCount_equal 3,
      trimLast_sumF codeInsCount codeInsCount_equal 3,
      trimFirst_sumF codeInsCount codeInsCount_equal 3]
    simp

/-! ## Where removed and inserted lines come from -/

theorem diffOps_del_mem : ∀ (a b : List String) (s : String),
    LineOp.del s ∈ diffOps a b → s ∈ a
  | [], [], s => by rw [diffOps]; simp
  | [], y :: ys, s => by
    rw [diffOps]
    intro h
    rcases List.mem_cons.mp h with h | h
    · exact (nomatch h)
    · exact diffOps_del_mem [] ys s h
  | x :: xs, [], s => by
    rw [diffOps]
    intro h
    rcases List.mem_cons.mp h with h | h
    · simp only [LineOp.del.injEq] at h
      subst h
      exact List.mem_cons_self _ _
    · exact List.mem_cons_of_mem x (diffOps_del_mem xs [] s h)
  | x :: xs, y :: ys, s => by
    rw [diffOps]
    by_cases hxy : x = y
    · rw [if_pos hxy]
      intro h
      rcases List.mem_cons.mp h with h | h
      · exact (nomatch h)
      · exact List.mem_cons_of_mem x (diffOps_del_mem xs ys s h)
    · rw [if_neg hxy]
      by_cases hge : lcsLen xs (y :: ys) ≥ lcsLen (x :: xs) ys
      · rw [if_pos hge]
        intro h
        rcases List.mem_cons.mp h with h | h
        · simp only [LineOp.del.injEq] at h
          subst h
          exact List.mem_cons_self _ _
        · exact List.mem_cons_of_mem x (diffOps_del_mem xs (y :: ys) s h)
      · rw [if_neg hge]
        intro h
        rcases List.mem_cons.mp h with h | h
        · exact (nomatch h)
        · exact diffOps_del_mem (x :: xs) ys s h
termination_by a b => a.length + b.length

theorem diffOps_ins_mem : ∀ (a b : List String) (s : String),
    LineOp.ins s ∈ diffOps a b → s ∈ b
  | [], [], s => by rw [diffOps]; simp
  | [], y :: ys, s => by
    rw [diffOps]
    intro h
    rcases List.mem_cons.mp h with h | h
    · simp only [LineOp.ins.injEq] at h
      subst h
      exact List.mem_cons_self _ _
    · exact List.mem_cons_of_mem y (diffOps_ins_mem [] ys s h)
  | x :: xs, [], s => by
    rw [diffOps]
    intro h
    rcases List.mem_cons.mp h with h | h
    · exact (nomatch h)
    · exact diffOps_ins_mem xs [] s h
  | x :: xs, y :: ys, s => by
    rw [diffOps]
    by_cases hxy : x = y
    · rw [if_pos hxy]
      intro h
      rcases List.mem_cons.mp h with h | h
      · exact (nomatch h)
      · exact List.mem_cons_of_mem y (diffOps_ins_mem xs ys s h)
    · rw [if_neg hxy]
      by_cases hge : lcsLen xs (y :: ys) ≥ lcsLen (x :: xs) ys
      · rw [if_pos hge]
        intro h
        rcases List.mem_cons.mp h with h | h
        · exact (nomatch h)
        · exact diffOps_ins_mem xs (y :: ys) s h
      · rw [if_neg hge]
        intro h
        rcases List.mem_cons.mp h with h | h
        · simp only [LineOp.ins.injEq] at h
          subst h
          exact List.mem_cons_self _ _
        · exact List.mem_cons_of_mem y (diffOps_ins_mem (x :: xs) ys s h)
termination_by a b => a.length + b.length

theorem buildCodes_del_mem (ops : List LineOp) : ∀ (i j : Nat) (c : Code),
    c ∈ buildCodes ops i j → c.tag = Tag.delete → ∀ s ∈ c.ls, LineOp.del s ∈ ops := by
  induction ops with
  | nil =>
    intro i j c hc
    rw [buildCodes] at hc
    simp at hc
  | cons op rest ih =>
    intro i j c hc htag s hs
    cases op with
    | eq s0 =>
      rw [buildCodes] at hc
      rcases hrec : buildCodes rest (i + 1) (j + 1) with _ | ⟨c0, cs0⟩
      · rw [hrec] at hc
        simp only [addEq] at hc
        have hc2 : c = newEqCode s0 i j := by simpa using hc
        subst hc2
        exact (nomatch htag)
      · rw [hrec] at hc
        by_cases h0 : c0.tag = Tag.equal
        · rw [addEq, if_pos h0] at hc
          rcases List.mem_cons.mp hc with rfl | hc2
          · exact absurd ((h0.symm.trans htag : Tag.equal = Tag.delete)) (by decide)
          · exact List.mem_cons_of_mem _
              (ih (i + 1) (j + 1) c (by rw [hrec]; exact List.mem_cons_of_mem c0 hc2) htag s hs)
        · rw [addEq, if_neg h0] at hc
          rcases List.mem_cons.mp hc with rfl | hc2
          · exact (nomatch htag)
          · exact List.mem_cons_of_mem _
              (ih (i + 1) (j + 1) c (by rw [hrec]; exact hc2) htag s hs)
    | del s0 =>
      rw [buildCodes] at hc
      rcases List.mem_cons.mp hc with rfl | hc2
      · have hss : s = s0 := by simpa using hs
        subst hss
        exact List.mem_cons_self _ _
      · exact List.mem_cons_of_mem _ (ih (i + 1) j c hc2 htag s hs)
    | ins s0 =>
      rw [buildCodes] at hc
      rcases List.mem_cons.mp hc with rfl | hc2
      · exact (nomatch htag)
      · exact List.mem_cons_of_mem _ (ih i (j + 1) c hc2 htag s hs)

theorem buildCodes_ins_mem (ops : List LineOp) : ∀ (i j : Nat) (c : Code),
    c ∈ buildCodes ops i j → c.tag = Tag.insert → ∀ s ∈ c.ls, LineOp.ins s ∈ ops := by
  induction ops with
  | nil =>
    intro i j c hc
    rw [buildCodes] at hc
    simp at hc
  | cons op rest ih =>
    intro i j c hc htag s hs
    cases op with
    | eq s0 =>
      rw [buildCodes] at hc
      rcases hrec : buildCodes rest (i + 1) (j + 1) with _ | ⟨c0, cs0⟩
      · rw [hrec] at hc
        simp only [addEq] at hc
        have hc2 : c = newEqCode s0 i j := by simpa using hc
        subst hc2
        exact (nomatch htag)
      · rw [hrec] at hc
        by_cases h0 : c0.tag = Tag.equal
        · rw [addEq, if_pos h0] at hc
          rcases List.mem_cons.mp hc with rfl | hc2
          · exact absurd ((h0.symm.trans htag : Tag.equal = Tag.insert)) (by decide)
          · exact List.mem_cons_of_mem _
              (ih (i + 1) (j + 1) c (by rw [hrec]; exact List.mem_cons_of_mem c0 hc2) htag s hs)
        · rw [addEq, if_neg h0] at hc
          rcases List.mem_cons.mp hc with rfl | hc2
          · exact (nomatch htag)
          · exact List.mem_cons_of_mem _
              (ih (i + 1) (j + 1) c (by rw [hrec]; exact hc2) htag s hs)
    | del s0 =>
      rw [buildCodes] at hc
      rcases List.mem_cons.mp hc with rfl | hc2
      · exact (nomatch htag)
      · exact List.mem_cons_of_mem _ (ih (i + 1) j c hc2 htag s hs)
    | ins s0 =>
      rw [buildCodes] at hc
      rcases List.mem_cons.mp hc with rfl | hc2
      · have hss : s = s0 := by simpa using hs
        subst hss
        exact List.mem_cons_self _ _
      · exact List.mem_cons_of_mem _ (ih i (j + 1) c hc2 htag s hs)

theorem trimFirst_mem (n : Nat) (cs : List Code) (c : Code) (hc : c ∈ trimFirstCode n cs)
    (ht : c.tag ≠ Tag.equal) : c ∈ cs := by
  cases cs with
  | nil => simp [trimFirstCode] at hc
  | cons c0 cs0 =>
    by_cases h0 : c0.tag = Tag.equal
    · rw [trimFirstCode, if_pos h0] at hc
      rcases List.mem_cons.mp hc with rfl | hc2
      · exact absurd (show _ = Tag.equal from h0) ht
      · exact List.mem_cons_of_mem _ hc2
    · rw [trimFirstCode, if_neg h0] at hc
      exact hc

theorem trimLast_mem (n : Nat) : ∀ (cs : List Code) (c : Code), c ∈ trimLastCode n cs →
    c.tag ≠ Tag.equal → c ∈ cs
  | [], c, hc, _ => by simp [trimLastCode] at hc
  | [c0], c, hc, ht => by
    by_cases h0 : c0.tag = Tag.equal
    · rw [trimLastCode, if_pos h0] at hc
      have hc2 : c = { c0 with a2 := min c0.a2 (c0.a1 + n), b2 := min c0.b2 (c0.b1 + n), ls := c0.ls.take n } := by simpa using hc
      subst hc2
      exact absurd (show _ = Tag.equal from h0) ht
    · rw [trimLastCode, if_neg h0] at hc
      exact hc
  | c0 :: c1 :: rest, c, hc, ht => by
    rw [show trimLastCode n (c0 :: c1 :: rest) = c0 :: trimLastCode n (c1 :: rest) from rfl] at hc
    rcases List.mem_cons.mp hc with rfl | hc2
    · exact List.mem_cons_self _ _
    · exact List.mem_cons_of_mem _ (trimLast_mem n (c1 :: rest) c hc2 ht)

theorem groupLoop_mem (n : Nat) : ∀ (codes group g : List Code) (c : Code),
    g ∈ groupLoop n group codes → c ∈ g → c.tag ≠ Tag.equal → c ∈ group ∨ c ∈ codes
  | [], group, g, c => by
    intro hg hc ht
    rw [groupLoop] at hg
    split at hg
    · simp at hg
    · have hg2 : g = group := by simpa using hg
      subst hg2
      exact Or.inl hc
  | c0 :: rest, group, g, c => by
    intro hg hc ht
    rw [groupLoop] at hg
    split at hg
    · rename_i hcond
      rcases List.mem_cons.mp hg with rfl | hg2
      · rcases List.mem_append.mp hc with h | h
        · exact Or.inl h
        · have hh : c = { c0 with a2 := min c0.a2 (c0.a1 + n), b2 := min c0.b2 (c0.b1 + n), ls := c0.ls.take n } := by simpa using h
          subst hh
          exact absurd (show _ = Tag.equal from hcond.1) ht
      · rcases groupLoop_mem n rest _ g c hg2 hc ht with h | h
        · have hh : c = { c0 with a1 := max c0.a1 (c0.a2 - n), b1 := max c0.b1 (c0.b2 - n), ls := c0.ls.drop (c0.ls.length - n) } := by simpa using h
          subst hh
          exact absurd (show _ = Tag.equal from hcond.1) ht
        · exact Or.inr (List.mem_cons_of_mem _ h)
    · rcases groupLoop_mem n rest _ g c hg hc ht with h | h
      · rcases List.mem_append.mp h with h2 | h2
        · exact Or.inl h2
        · have hh : c = c0 := by simpa using h2
          subst hh
          exact Or.inr (List.mem_cons_self _ _)
      · exact Or.inr (List.mem_cons_of_mem _ h)

theorem grouped_mem (codes : List Code) (g : List Code) (c : Code)
    (hg : g ∈ getGroupedOpcodes codes 3) (hc : c ∈ g) (ht : c.tag ≠ Tag.equal) :
    c ∈ codes := by
  unfold getGroupedOpcodes at hg
  by_cases he : codes.isEmpty
  · rw [if_pos he] at hg
    rcases groupLoop_mem 3 _ [] g c hg hc ht with h | h
    · simp at h
    · have h2 := trimFirst_mem 3 _ c (trimLast_mem 3 _ c h ht) ht
      have h3 : c = (⟨Tag.equal, 0, 1, 0, 1, []⟩ : Code) := by simpa using h2
      subst h3
      exact absurd rfl ht
  · rw [if_neg he] at hg
    rcases groupLoop_mem 3 _ [] g c hg hc ht with h | h
    · simp at h
    · exact trimFirst_mem 3 codes c (trimLast_mem 3 _ c h ht) ht

/-- All hunks produced for benign input line sequences are benign. -/
theorem groupsOf_benign (a b : List String)
    (ha : ∀ l ∈ a, pyStartsWith l "--" = false)
    (hb : ∀ l ∈ b, pyStartsWith l "++" = false) :
    groupsBenign (groupsOf a b) := by
  intro g hg c hc
  constructor
  · intro htag s hs
    have hmem : c ∈ buildCodes (diffOps a b) 0 0 :=
      grouped_mem _ g c hg hc (by rw [htag]; decide)
    exact ha s (diffOps_del_mem a b s (buildCodes_del_mem (diffOps a b) 0 0 c hmem htag s hs))
  · intro htag s hs
    have hmem : c ∈ buildCodes (diffOps a b) 0 0 :=
      grouped_mem _ g c hg hc (by rw [htag]; decide)
    exact hb s (diffOps_ins_mem a b s (buildCodes_ins_mem (diffOps a b) 0 0 c hmem htag s hs))

theorem groupsOf_ne_nil (a b : List String) : ∀ g ∈ groupsOf a b, g ≠ [] := by
  intro g hg
  exact groupLoop_ne_nil 3 _ _ g hg

/-! ## Claim C6 -/

/-- C6 counterexample: for original lines `["--x", "c"]` and modified
lines `["y", "c"]` the removed line is formatted as `---x` and swallowed
by the file-header skip, so the emitted context line for `"c"` carries
number 1 while the hunk discipline (and the original file position)
gives 2. -/
theorem c6_numbering_counterexample :
    ¬ ((diffPipeline ["--x", "c"] ["y", "c"]).lines =
        specNumberedDiff (groupsOf ["--x", "c"] ["y", "c"])) := by
  have hg : groupsOf ["--x", "c"] ["y", "c"] =
      [[⟨Tag.delete, 0, 1, 0, 0, ["--x"]⟩, ⟨Tag.insert, 1, 1, 0, 1, ["y"]⟩,
        ⟨Tag.equal, 1, 2, 1, 2, ["c"]⟩]] := by
    simp [groupsOf, diffOps, lcsLen, buildCodes, addEq, newEqCode, getGroupedOpcodes,
      trimFirstCode, trimLastCode, groupLoop, singleEqual]
  have hu : unifiedDiffLines [[⟨Tag.delete, 0, 1, 0, 0, ["--x"]⟩,
        ⟨Tag.insert, 1, 1, 0, 1, ["y"]⟩, ⟨Tag.equal, 1, 2, 1, 2, ["c"]⟩]] =
      ["--- ", "+++ ", "@@ -1,2 +1,2 @@", "---x", "+y", " c"] := by
    simp [unifiedDiffLines, fmtGroup, fmtCode, fmtRange, natStr, natToCharsAux, digitChar]
  show ¬ ((processDiffLines (unifiedDiffLines
      (getGroupedOpcodes (buildCodes (diffOps ["--x", "c"] ["y", "c"]) 0 0) 3))).lines =
    specNumberedDiff (groupsOf ["--x", "c"] ["y", "c"]))
  rw [show getGroupedOpcodes (buildCodes (diffOps ["--x", "c"] ["y", "c"]) 0 0) 3 =
      groupsOf ["--x", "c"] ["y", "c"] from rfl, hg, hu]
  decide

/-- C6 (amended): for every pair of diff inputs none of whose lines
start with `--` or `++`, the emitted diff records are exactly the hunks'
classified lines numbered by the spec's discipline: a counter seeded
from each hunk's reported starting line in the original sequence,
emitted-then-incremented on context and removed lines, emitted without
increment on added lines. -/
theorem c6_numbering_follows_spec (a b : List String)
    (h : ∀ l ∈ a ++ b, pyStartsWith l "--" = false ∧ pyStartsWith l "++" = false) :
    (diffPipeline a b).lines = specNumberedDiff (groupsOf a b) := by
  have ha : ∀ l ∈ a, pyStartsWith l "--" = false :=
    fun l hl => (h l (List.mem_append_left _ hl)).1
  have hb2 : ∀ l ∈ b, pyStartsWith l "++" = false :=
    fun l hl => (h l (List.mem_append_right _ hl)).2
  unfold diffPipeline
  rw [show getGroupedOpcodes (buildCodes (diffOps a b) 0 0) 3 = groupsOf a b from rfl]
  rw [processDiff_roundtrip _ (groupsOf_benign a b ha hb2) (groupsOf_ne_nil a b)]

theorem c6_numbering_follows_spec_witness :
    (diffPipeline ["a", "b", "c"] ["a", "x", "c"]).lines =
      specNumberedDiff (groupsOf ["a", "b", "c"] ["a", "x", "c"]) :=
  c6_numbering_follows_spec ["a", "b", "c"] ["a", "x", "c"] (by decide)

/-! ## Claim C8 -/

/-- For benign line sequences the two counters of the pipeline are the
line counts outside a longest common subsequence. -/
theorem diffPipeline_counts (a b : List String)
    (ha : ∀ l ∈ a, pyStartsWith l "--" = false)
    (hb : ∀ l ∈ b, pyStartsWith l "++" = false) :
    (diffPipeline a b).additions = b.length - lcsLen a b ∧
    (diffPipeline a b).deletions = a.length - lcsLen a b := by
  unfold diffPipeline
  rw [show getGroupedOpcodes (buildCodes (diffOps a b) 0 0) 3 = groupsOf a b from rfl]
  rw [processDiff_roundtrip _ (groupsOf_benign a b ha hb) (groupsOf_ne_nil a b)]
  constructor
  · show groupsInsCount (groupsOf a b) = _
    unfold groupsOf
    rw [grouped_insSum, buildCodes_insSum, diffOps_insCount]
  · show groupsDelCount (groupsOf a b) = _
    unfold groupsOf
    rw [grouped_delSum, buildCodes_delSum, diffOps_delCount]

/-- C8 counterexample: for the texts `"--x"` and `"y"` the removed line
`--x` is formatted as `---x` and swallowed by the file-header skip, so
`Diff("--x", "y").deletions = 0` while `Diff("y", "--x").additions = 1`. -/
theorem c8_symmetry_counterexample :
    (getPatchDiff (some "--x") (some "y")).deletions ≠
      (getPatchDiff (some "y") (some "--x")).additions := by
  have g1 : groupsOf ["--x"] ["y"] =
      [[⟨Tag.delete, 0, 1, 0, 0, ["--x"]⟩, ⟨Tag.insert, 1, 1, 0, 1, ["y"]⟩]] := by
    simp [groupsOf, diffOps, lcsLen, buildCodes, addEq, newEqCode, getGroupedOpcodes,
      trimFirstCode, trimLastCode, groupLoop, singleEqual]
  have g2 : groupsOf ["y"] ["--x"] =
      [[⟨Tag.delete, 0, 1, 0, 0, ["y"]⟩, ⟨Tag.insert, 1, 1, 0, 1, ["--x"]⟩]] := by
    simp [groupsOf, diffOps, lcsLen, buildCodes, addEq, newEqCode, getGroupedOpcodes,
      trimFirstCode, trimLastCode, groupLoop, singleEqual]
  have u1 : unifiedDiffLines [[⟨Tag.delete, 0, 1, 0, 0, ["--x"]⟩,
        ⟨Tag.insert, 1, 1, 0, 1, ["y"]⟩]] = ["--- ", "+++ ", "@@ -1 +1 @@", "---x", "+y"] := by
    simp [unifiedDiffLines, fmtGroup, fmtCode, fmtRange, natStr, natToCharsAux, digitChar]
  have u2 : unifiedDiffLines [[⟨Tag.delete, 0, 1, 0, 0, ["y"]⟩,
        ⟨Tag.insert, 1, 1, 0, 1, ["--x"]⟩]] = ["--- ", "+++ ", "@@ -1 +1 @@", "-y", "+--x"] := by
    simp [unifiedDiffLines, fmtGroup, fmtCode, fmtRange, natStr, natToCharsAux, digitChar]
  have e1 : getPatchDiff (some "--x") (some "y") =
      processDiffLines ["--- ", "+++ ", "@@ -1 +1 @@", "---x", "+y"] := by
    show (if ("--x" : String) ≠ "" ∧ ("y" : String) ≠ "" then
        diffPipeline (splitLines "--x") (splitLines "y") else ⟨[], 0, 0⟩) = _
    rw [if_pos ⟨by decide, by decide⟩]
    show processDiffLines (unifiedDiffLines
      (getGroupedOpcodes (buildCodes (diffOps ["--x"] ["y"]) 0 0) 3)) = _
    rw [show getGroupedOpcodes (buildCodes (diffOps ["--x"] ["y"]) 0 0) 3 =
        groupsOf ["--x"] ["y"] from rfl, g1, u1]
  have e2 : getPatchDiff (some "y") (some "--x") =
      processDiffLines ["--- ", "+++ ", "@@ -1 +1 @@", "-y", "+--x"] := by
    show (if ("y" : String) ≠ "" ∧ ("--x" : String) ≠ "" then
        diffPipeline (splitLines "y") (splitLines "--x") else ⟨[], 0, 0⟩) = _
    rw [if_pos ⟨by decide, by decide⟩]
    show processDiffLines (unifiedDiffLines
      (getGroupedOpcodes (buildCodes (diffOps ["y"] ["--x"]) 0 0) 3)) = _
    rw [show getGroupedOpcodes (buildCodes (diffOps ["y"] ["--x"]) 0 0) 3 =
        groupsOf ["y"] ["--x"] from rfl, g2, u2]
  rw [e1, e2]
  decide

/-- C8 (amended): for every pair of texts none of whose lines start
with `--` or `++`, the deletions count of `Diff(A, B)` equals the
additions count of `Diff(B, A)` and vice versa (both reduce to line
counts outside a longest common subsequence, which is symmetric). -/
theorem c8_symmetry_benign (A B : String)
    (h : ∀ l ∈ splitLines A ++ splitLines B,
      pyStartsWith l "--" = false ∧ pyStartsWith l "++" = false) :
    (getPatchDiff (some A) (some B)).deletions = (getPatchDiff (some B) (some A)).additions ∧
    (getPatchDiff (some A) (some B)).additions = (getPatchDiff (some B) (some A)).deletions := by
  by_cases hA : A = ""
  · subst hA
    constructor <;> simp [getPatchDiff]
  · by_cases hB : B = ""
    · subst hB
      constructor <;> simp [getPatchDiff]
    · have h1 := diffPipeline_counts (splitLines A) (splitLines B)
        (fun l hl => (h l (List.mem_append_left _ hl)).1)
        (fun l hl => (h l (List.mem_append_right _ hl)).2)
      have h2 := diffPipeline_counts (splitLines B) (splitLines A)
        (fun l hl => (h l (List.mem_append_right _ hl)).1)
        (fun l hl => (h l (List.mem_append_left _ hl)).2)
      have e1 : getPatchDiff (some A) (some B) = diffPipeline (splitLines A) (splitLines B) := by
        show (if A ≠ "" ∧ B ≠ "" then _ else _) = _
        rw [if_pos ⟨hA, hB⟩]
      have e2 : getPatchDiff (some B) (some A) = diffPipeline (splitLines B) (splitLines A) := by
        show (if B ≠ "" ∧ A ≠ "" then _ else _) = _
        rw [if_pos ⟨hB, hA⟩]
      rw [e1, e2, h1.1, h1.2, h2.1, h2.2, lcsLen_comm]
      exact ⟨rfl, rfl⟩

theorem c8_symmetry_benign_witness :
    (getPatchDiff (some "a\nb") (some "a\nx")).deletions =
      (getPatchDiff (some "a\nx") (some "a\nb")).additions ∧
    (getPatchDiff (some "a\nb") (some "a\nx")).additions =
      (getPatchDiff (some "a\nx") (some "a\nb")).deletions :=
  c8_symmetry_benign "a\nb" "a\nx" (by decide)
